import Mathlib

set_option maxRecDepth 8000

/-!
Verification development for the YT-search-skip backend (src/server.js).

The development shallowly embeds the JavaScript code of `server.js`:

* `extractJSON` (server.js lines 40-107): the response sanitizer.  Strings are
  modelled as `List Char` / `String`, JavaScript values as the inductive `JVal`,
  JavaScript numbers as `JNum` (a rational or NaN; IEEE-754 rounding and the
  infinities are outside the model, which is noted where it matters), and every
  JavaScript operation used by the code (regex replaces, `JSON.parse`,
  `parseFloat`, `isNaN`, relational coercion, property access) is embedded as a
  total executable function.  A thrown exception is an `Except.error`; the
  surrounding `try/catch` of the source turns it into `{ adSegments: [] }`.
* `getVideoId` (lines 29-37) and the `/analyze-video` handler (lines 110-226),
  with the external collaborators (WHATWG URL parser, transcript provider,
  generative-AI client) abstracted as parameters of a `Deps` structure.
-/

/-! ### Characters and JavaScript whitespace -/

/-- The double-quote character. -/
def qMark : Char := Char.ofNat 34

/-- The backslash character. -/
def bSlash : Char := Char.ofNat 92

/-- The opening curly brace character. -/
def obrace : Char := Char.ofNat 0x7b

/-- The closing curly brace character. -/
def cbrace : Char := Char.ofNat 0x7d

/-- ASCII decimal digit test (regex `\d`). -/
def isDigitC (c : Char) : Bool := 48 ≤ c.toNat && c.toNat ≤ 57

/-- Numeric value of an ASCII digit character. -/
def digitV (c : Char) : ℕ := c.toNat - 48

/-- JavaScript regex `\s` / `String.prototype.trim` whitespace class:
ASCII whitespace, NBSP, BOM, and the Unicode space separators. -/
def isJsWs (c : Char) : Bool :=
  c.toNat = 32 || c.toNat = 9 || c.toNat = 10 || c.toNat = 13 ||
  c.toNat = 11 || c.toNat = 12 || c.toNat = 0xa0 || c.toNat = 0xfeff ||
  c.toNat = 0x1680 || (0x2000 ≤ c.toNat && c.toNat ≤ 0x200a) ||
  c.toNat = 0x2028 || c.toNat = 0x2029 || c.toNat = 0x202f ||
  c.toNat = 0x205f || c.toNat = 0x3000

/-- `text.trim()` (server.js line 43). -/
def jsTrim (cs : List Char) : List Char :=
  ((cs.dropWhile isJsWs).reverse.dropWhile isJsWs).reverse

/-! ### Code-fence stripping (server.js lines 46-48)

`cleanText.replace(/^X\s*/, '')` for an anchored literal `X` removes a leading
`X` together with the whitespace run after it, and only at the very start;
`cleanText.replace(/\s*X$/, '')` removes a trailing `X` together with the
whitespace run before it, and only at the very end. -/

/-- `cleanText.replace(/^` ```json `\s*/, '')` (line 46). -/
def stripLeadJsonFence (cs : List Char) : List Char :=
  if "```json".data.isPrefixOf cs then (cs.drop 7).dropWhile isJsWs else cs

/-- `cleanText.replace(/^` ``` `\s*/, '')` (line 47). -/
def stripLeadFence (cs : List Char) : List Char :=
  if "```".data.isPrefixOf cs then (cs.drop 3).dropWhile isJsWs else cs

/-- `cleanText.replace(/\s*` ``` `$/, '')` (line 48). -/
def stripTrailFence (cs : List Char) : List Char :=
  if "```".data.isSuffixOf cs then
    ((cs.reverse.drop 3).dropWhile isJsWs).reverse
  else cs

/-- Lines 43-48 of server.js: trim, then strip the anchored code fences. -/
def preclean (cs : List Char) : List Char :=
  stripTrailFence (stripLeadFence (stripLeadJsonFence (jsTrim cs)))

/-! ### Extracting the JSON-looking span (server.js line 51)

`cleanText.match(/\{[\s\S]*\}/)`: the leftmost match starts at the first
opening brace, and the greedy `[\s\S]*` extends the match to the last closing
brace of the whole text; there is a match exactly when some closing brace
occurs after the first opening brace. -/

/-- The span matched by `/\{[\s\S]*\}/`, if any. -/
def jsonSpan (cs : List Char) : Option (List Char) :=
  match cs.findIdx? (fun c => c = obrace) with
  | none => none
  | some i =>
    match cs.reverse.findIdx? (fun c => c = cbrace) with
    | none => none
    | some rj =>
      let j := cs.length - 1 - rj
      if i < j then some ((cs.drop i).take (j - i + 1)) else none

/-! ### The `ms`-suffix repair (server.js lines 60-61)

`jsonStr.replace(/"start":\s*(\d+\.?\d*)ms/g, '"start": $1')` and the same
for `"end"`.  The scan is left to right; after a replacement it continues
after the matched text.  The replacement re-emits the field name, a colon,
exactly one space, and the captured number (so the matched whitespace run is
normalised to one space and the trailing `ms` is dropped). -/

/-- Try to match `"<key>":\s*(\d+\.?\d*)ms` at the head of `cs`.  On success
return the replacement text `"<key>": <capture>` and the rest of the input
after the match.  The backtracking of `\.?` reduces to: after the integer
digits, either a dot plus more digits directly followed by `ms`, or `ms`
directly (a dot not followed by digits-then-`ms` cannot be part of a match,
since `.` and a digit never begin the literal `ms`). -/
def matchMs (key : List Char) (cs : List Char) : Option (List Char × List Char) :=
  let pre : List Char := qMark :: key ++ [qMark, ':']
  if pre.isPrefixOf cs then
    let r1 := (cs.drop pre.length).dropWhile isJsWs
    let ds := r1.takeWhile isDigitC
    if ds.isEmpty then none
    else
      let r2 := r1.drop ds.length
      match r2 with
      | '.' :: r3 =>
        let fs := r3.takeWhile isDigitC
        let r4 := r3.drop fs.length
        if "ms".data.isPrefixOf r4 then
          some (pre ++ [' '] ++ ds ++ '.' :: fs, r4.drop 2)
        else none
      | _ =>
        if "ms".data.isPrefixOf r2 then some (pre ++ [' '] ++ ds, r2.drop 2)
        else none
  else none

/-- Left-to-right global-replace scan for `matchMs`; `fuel` bounds the number
of scanned positions (callers pass the input length). -/
def msFixGo (key : List Char) : ℕ → List Char → List Char
  | 0, cs => cs
  | _ + 1, [] => []
  | fuel + 1, c :: rest =>
    match matchMs key (c :: rest) with
    | some (repl, rest2) => repl ++ msFixGo key fuel rest2
    | none => c :: msFixGo key fuel rest

/-- Lines 60-61 of server.js: repair the `ms` suffix on `"start"` fields, then
on `"end"` fields. -/
def msFixAll (cs : List Char) : List Char :=
  let a := msFixGo "start".data cs.length cs
  msFixGo "end".data a.length a

/-! ### HTML-entity repair (server.js lines 64-66) -/

/-- Left-to-right global replacement of the literal `pat` by `repl`; matching
continues after the matched text, as JavaScript `String.replace` with a
global literal regex does.  `fuel` bounds the scanned positions. -/
def replGo (pat repl : List Char) : ℕ → List Char → List Char
  | 0, cs => cs
  | _ + 1, [] => []
  | fuel + 1, c :: rest =>
    if pat.isPrefixOf (c :: rest) then
      repl ++ replGo pat repl fuel ((c :: rest).drop pat.length)
    else c :: replGo pat repl fuel rest

/-- `jsonStr.replace(/<pat>/g, '<repl>')` for a literal pattern. -/
def replaceAllL (pat repl cs : List Char) : List Char :=
  if pat.isEmpty then cs else replGo pat repl cs.length cs

/-- Lines 64-66 of server.js, in source order: `&amp;#39;` to an apostrophe,
then `&amp;quot;` to a double quote, then `&amp;` to an ampersand. -/
def entFix (cs : List Char) : List Char :=
  replaceAllL "&amp;".data "&".data
    (replaceAllL "&amp;quot;".data [qMark]
      (replaceAllL "&amp;#39;".data "\x27".data cs))

/-- Lines 59-66 of server.js: the textual repairs applied to the extracted
span, in order: the `ms` repairs, then the entity repairs. -/
def fixSpan (cs : List Char) : List Char := entFix (msFixAll cs)

/-! ### JavaScript numbers

A JavaScript number is modelled as an exact rational or NaN.  The model has
no IEEE-754 rounding and no infinities: the code under verification only
parses decimal literals and compares numbers, and none of the claims involve
values outside the exactly-representable range. -/

/-- A JavaScript number: NaN or a rational value. -/
inductive JNum where
  | nan : JNum
  | val : ℚ → JNum
  deriving DecidableEq

/-- `isNaN` on an already-numeric value. -/
def JNum.isNaNb : JNum → Bool
  | .nan => true
  | .val _ => false

/-- JavaScript `a >= b` on numbers (false when either side is NaN). -/
def jgeB : JNum → JNum → Bool
  | .val x, .val y => !Rat.blt x y
  | _, _ => false

/-- JavaScript `a > b` on numbers (false when either side is NaN). -/
def jgtB : JNum → JNum → Bool
  | .val x, .val y => Rat.blt y x
  | _, _ => false

/-- Most-significant-digit-first value of a list of ASCII digit characters. -/
def digitsToNat (ds : List Char) : ℕ :=
  ds.foldl (fun a c => a * 10 + digitV c) 0

/-- Value of a fractional digit block: `digits / 10 ^ length`. -/
def fracOf (ds : List Char) : ℚ :=
  (digitsToNat ds : ℚ) / (10 : ℚ) ^ ds.length

/-- Exponent suffix accepted by `parseFloat` after the mantissa:
`(e|E)(+|-)?\d+`, where a malformed suffix contributes exponent `0`
(it is simply not part of the parsed prefix). -/
def floatExpOf (cs : List Char) : ℤ :=
  match cs with
  | c :: r1 =>
    if c = 'e' ∨ c = 'E' then
      let (neg, r2) : Bool × List Char :=
        match r1 with
        | d :: r2 =>
          if d = '-' then (true, r2) else if d = '+' then (false, r2) else (false, r1)
        | [] => (false, r1)
      let ds := r2.takeWhile isDigitC
      if ds.isEmpty then 0 else (if neg then -(digitsToNat ds : ℤ) else (digitsToNat ds : ℤ))
    else 0
  | [] => 0

/-- JavaScript `parseFloat`: skip leading whitespace, an optional sign, then
the longest prefix of the form `\d*(\.\d*)?((e|E)(+|-)?\d+)?`; NaN when no
mantissa digit is present.  (The `Infinity` spelling is outside the model.) -/
def parseFloatJS (s : String) : JNum :=
  let cs := s.data.dropWhile isJsWs
  let (neg, cs1) : Bool × List Char :=
    match cs with
    | c :: r => if c = '-' then (true, r) else if c = '+' then (false, r) else (false, cs)
    | [] => (false, cs)
  let ip := cs1.takeWhile isDigitC
  let r1 := cs1.drop ip.length
  let (fp, r2) : List Char × List Char :=
    match r1 with
    | c :: r =>
      if c = '.' then (r.takeWhile isDigitC, r.drop (r.takeWhile isDigitC).length)
      else ([], r1)
    | [] => ([], r1)
  if ip.isEmpty ∧ fp.isEmpty then .nan
  else
    let mant : ℚ := (digitsToNat ip : ℚ) + fracOf fp
    let q : ℚ := mant * (10 : ℚ) ^ floatExpOf r2
    .val (if neg then -q else q)

/-- JavaScript `ToNumber` on a string: trimmed empty string is `0`; otherwise
the whole trimmed string must be a signed decimal literal
`(\d+(\.\d*)?|\.\d+)((e|E)(+|-)?\d+)?`, else NaN.  (Hex/octal/binary literals
and `Infinity` are outside the model.) -/
def strToNumJS (s : String) : JNum :=
  let cs := jsTrim s.data
  if cs.isEmpty then .val 0
  else
    let (neg, cs1) : Bool × List Char :=
      match cs with
      | c :: r => if c = '-' then (true, r) else if c = '+' then (false, r) else (false, cs)
      | [] => (false, cs)
    let ip := cs1.takeWhile isDigitC
    let r1 := cs1.drop ip.length
    let (fp, r2) : List Char × List Char :=
      match r1 with
      | c :: r =>
        if c = '.' then (r.takeWhile isDigitC, r.drop (r.takeWhile isDigitC).length)
        else ([], r1)
      | [] => ([], r1)
    if ip.isEmpty ∧ fp.isEmpty then .nan
    else
      let ex : ℤ := floatExpOf r2
      let consumedExp : ℕ :=
        match r2 with
        | c :: r3 =>
          if c = 'e' ∨ c = 'E' then
            let (sgnLen, r4) : ℕ × List Char :=
              match r3 with
              | d :: r4 => if d = '-' ∨ d = '+' then (1, r4) else (0, r3)
              | [] => (0, r3)
            let ds := r4.takeWhile isDigitC
            if ds.isEmpty then 0 else 1 + sgnLen + ds.length
          else 0
        | [] => 0
    if r2.drop consumedExp ≠ [] then .nan
    else
      let mant : ℚ := (digitsToNat ip : ℚ) + fracOf fp
      let q : ℚ := mant * (10 : ℚ) ^ ex
      .val (if neg then -q else q)

/-! ### JavaScript values -/

/-- A JavaScript value as visible to the code under verification: `undef` is
`undefined` (it can arise from property access, never from `JSON.parse`). -/
inductive JVal where
  | null : JVal
  | undef : JVal
  | bool : Bool → JVal
  | num : JNum → JVal
  | str : String → JVal
  | arr : List JVal → JVal
  | obj : List (String × JVal) → JVal

/-- `typeof v === 'string'`. -/
def JVal.isStrB : JVal → Bool
  | .str _ => true
  | _ => false

/-- Is the value a plain object (the only values whose named properties can
be set, and the only JSON values with own named properties)? -/
def JVal.isObjB : JVal → Bool
  | .obj _ => true
  | _ => false

/-- First binding of a key in a field list. -/
def lookupField : List (String × JVal) → String → Option JVal
  | [], _ => none
  | (k2, v) :: r, k => if k2 = k then some v else lookupField r k

/-- JavaScript property read `v[k]` for the keys used by the code
(`start`, `end`, `text`, `adSegments`): `undefined` on primitives and arrays
(none of these keys is an index or a built-in own property), the bound value
or `undefined` on objects.  Reads on `null`/`undefined` throw; callers guard
those cases explicitly. -/
def jsGetField (v : JVal) (k : String) : JVal :=
  match v with
  | .obj fs => (lookupField fs k).getD JVal.undef
  | _ => JVal.undef

/-- Replace the value of the first binding of `k`, or append a new binding:
exactly JavaScript property assignment order (also the duplicate-key
behaviour of `JSON.parse`, which keeps the first position and last value). -/
def setFieldL (fs : List (String × JVal)) (k : String) (v : JVal) :
    List (String × JVal) :=
  match fs with
  | [] => [(k, v)]
  | (k2, v2) :: r => if k2 = k then (k2, v) :: r else (k2, v2) :: setFieldL r k v

/-- JavaScript property write `o[k] = v` (no-op on non-objects; the code only
writes to values it read a string-valued property from, hence objects). -/
def setField (o : JVal) (k : String) (v : JVal) : JVal :=
  match o with
  | .obj fs => .obj (setFieldL fs k v)
  | x => x

/-- `ToNumber` of a single array element under array-join `ToString`
semantics: `null`, `undefined` and the empty array stringify to the empty
string (number `0`); booleans and plain objects stringify to non-numeric
words (NaN); a one-element array stringifies as its element. -/
def toNumInArr : JVal → JNum
  | .null => .val 0
  | .undef => .val 0
  | .num n => n
  | .str s => strToNumJS s
  | .bool _ => .nan
  | .obj _ => .nan
  | .arr [] => .val 0
  | .arr [x] => toNumInArr x
  | .arr _ => .nan

/-- JavaScript `ToNumber` as used by `isNaN` and the relational operators of
the segment validation (the compared values are never strings there, so the
string-vs-string lexicographic comparison case cannot arise). -/
def toNumber : JVal → JNum
  | .num n => n
  | .null => .val 0
  | .undef => .nan
  | .bool b => .val (if b then 1 else 0)
  | .str s => strToNumJS s
  | .obj _ => .nan
  | .arr [] => .val 0
  | .arr [x] => toNumInArr x
  | .arr (_ :: _ :: _) => .nan

/-! ### Segment coercion and validation (server.js lines 79-99) -/

/-- Lines 81-83: replace a string-valued `start` property by its
`parseFloat` value.  Property assignment does nothing on non-objects, and a
string-valued property can only be read from an object. -/
def coerceStart (e : JVal) : JVal :=
  match jsGetField e "start" with
  | .str s => setField e "start" (.num (parseFloatJS s))
  | _ => e

/-- Lines 84-86: replace a string-valued `end` property by its
`parseFloat` value. -/
def coerceEnd (e : JVal) : JVal :=
  match jsGetField e "end" with
  | .str s => setField e "end" (.num (parseFloatJS s))
  | _ => e

/-- Lines 81-86: the in-place numeric coercion of one segment. -/
def coerceSeg (e : JVal) : JVal := coerceEnd (coerceStart e)

/-- Lines 88-93: the validity test on an (already coerced) segment. -/
def segOk (e : JVal) : Bool :=
  let a := toNumber (jsGetField e "start")
  let b := toNumber (jsGetField e "end")
  !a.isNaNb && !b.isNaNb && (jsGetField e "text").isStrB &&
    jgeB a (.val 0) && jgtB b a

/-- Lines 79-99: `parsed.adSegments.filter(segment => ...)`.  Reading
`segment.start` on a `null` (or `undefined`) element throws a `TypeError`,
which escapes the filter (and is caught by the outer `try`); every other
element is coerced in place and kept exactly when valid, preserving order. -/
def filterSegs : List JVal → Except Unit (List JVal)
  | [] => .ok []
  | e :: rest =>
    match e with
    | .null => .error ()
    | .undef => .error ()
    | _ =>
      let e2 := coerceSeg e
      match filterSegs rest with
      | .error u => .error u
      | .ok r => .ok (if segOk e2 then e2 :: r else r)

/-! ### `JSON.parse` (server.js line 70)

A strict JSON parser over `List Char`, fuel-based.  Duplicate object keys
keep their first position and last value (`setFieldL`), as in JavaScript.
`\u` escapes denoting surrogate code units are outside the model (Lean
characters are scalar values). -/

/-- JSON insignificant whitespace (stricter than regex `\s`). -/
def isJsonWsC (c : Char) : Bool :=
  c.toNat = 32 || c.toNat = 9 || c.toNat = 10 || c.toNat = 13

/-- Hex digit value. -/
def hexValC (c : Char) : Option ℕ :=
  if 48 ≤ c.toNat ∧ c.toNat ≤ 57 then some (c.toNat - 48)
  else if 97 ≤ c.toNat ∧ c.toNat ≤ 102 then some (c.toNat - 87)
  else if 65 ≤ c.toNat ∧ c.toNat ≤ 70 then some (c.toNat - 55)
  else none

/-- Single-character JSON string escapes. -/
def escCharOf (e : Char) : Option Char :=
  if e = qMark then some qMark
  else if e = bSlash then some bSlash
  else if e = '/' then some '/'
  else if e = 'b' then some (Char.ofNat 8)
  else if e = 'f' then some (Char.ofNat 12)
  else if e = 'n' then some (Char.ofNat 10)
  else if e = 'r' then some (Char.ofNat 13)
  else if e = 't' then some (Char.ofNat 9)
  else none

/-- Parse a JSON string body (after the opening quote): returns the decoded
content and the input after the closing quote.  Unescaped control characters
are rejected, as in `JSON.parse`. -/
def parseStrBody : ℕ → List Char → Except Unit (List Char × List Char)
  | 0, _ => .error ()
  | _ + 1, [] => .error ()
  | fuel + 1, c :: rest =>
    if c = qMark then .ok ([], rest)
    else if c = bSlash then
      match rest with
      | [] => .error ()
      | e :: r2 =>
        match escCharOf e with
        | some ch =>
          match parseStrBody fuel r2 with
          | .ok (s, r) => .ok (ch :: s, r)
          | .error u => .error u
        | none =>
          if e = 'u' then
            match r2 with
            | h1 :: h2 :: h3 :: h4 :: r3 =>
              match hexValC h1, hexValC h2, hexValC h3, hexValC h4 with
              | some a, some b, some c2, some d =>
                match parseStrBody fuel r3 with
                | .ok (s, r) => .ok (Char.ofNat (((a * 16 + b) * 16 + c2) * 16 + d) :: s, r)
                | .error u => .error u
              | _, _, _, _ => .error ()
            | _ => .error ()
          else .error ()
    else if c.toNat < 32 then .error ()
    else
      match parseStrBody fuel rest with
      | .ok (s, r) => .ok (c :: s, r)
      | .error u => .error u

/-- Parse the optional exponent part of a JSON number: `(e|E)(+|-)?\d+`;
an `e`/`E` not followed by digits is a syntax error. -/
def parseExpPart (cs : List Char) : Except Unit (ℤ × List Char) :=
  match cs with
  | c :: r1 =>
    if c = 'e' ∨ c = 'E' then
      let (neg, r2) : Bool × List Char :=
        match r1 with
        | d :: r => if d = '-' then (true, r) else if d = '+' then (false, r) else (false, r1)
        | [] => (false, r1)
      let ds := r2.takeWhile isDigitC
      if ds.isEmpty then .error ()
      else .ok (if neg then -(digitsToNat ds : ℤ) else (digitsToNat ds : ℤ), r2.drop ds.length)
    else .ok (0, cs)
  | [] => .ok (0, [])

/-- Parse the integer part of a JSON number magnitude: a leading `0` is
consumed alone (a following digit then trips the caller, as in
`JSON.parse`); otherwise the maximal digit run. -/
def parseIntPart (cs1 : List Char) : ℕ × List Char :=
  match cs1 with
  | c :: r =>
    if c = '0' then (0, r)
    else (digitsToNat (cs1.takeWhile isDigitC), cs1.drop (cs1.takeWhile isDigitC).length)
  | [] => (0, [])

/-- Parse the optional fraction part `(\.\d+)?` of a JSON number. -/
def parseFracPart (r1 : List Char) : Except Unit (ℚ × List Char) :=
  match r1 with
  | '.' :: r2 =>
    let fs := r2.takeWhile isDigitC
    if fs.isEmpty then .error ()
    else .ok (fracOf fs, r2.drop fs.length)
  | _ => .ok (0, r1)

/-- Parse the magnitude of a JSON number:
`(0|[1-9]\d*)(\.\d+)?((e|E)(+|-)?\d+)?`. -/
def parseJNumMag (cs1 : List Char) : Except Unit (ℚ × List Char) :=
  match cs1 with
  | c :: _ =>
    if isDigitC c then
      match parseFracPart (parseIntPart cs1).2 with
      | .ok (fv, r2) =>
        match parseExpPart r2 with
        | .ok (ex, r3) => .ok ((((parseIntPart cs1).1 : ℚ) + fv) * (10 : ℚ) ^ ex, r3)
        | .error u => .error u
      | .error u => .error u
    else .error ()
  | [] => .error ()

/-- Parse a JSON number: an optional minus sign, then the magnitude. -/
def parseJNumber (cs : List Char) : Except Unit (ℚ × List Char) :=
  match cs with
  | c :: r =>
    if c = '-' then
      match parseJNumMag r with
      | .ok (q, rest) => .ok (-q, rest)
      | .error u => .error u
    else parseJNumMag cs
  | [] => .error ()

mutual

/-- Parse a JSON value at the head of the input (after skipping whitespace).
Fuel decreases on every nested parse; `parseJsonText` supplies enough for
any input. -/
def parseVal : ℕ → List Char → Except Unit (JVal × List Char)
  | 0, _ => .error ()
  | fuel + 1, cs =>
    let cs1 := cs.dropWhile isJsonWsC
    match cs1 with
    | [] => .error ()
    | c :: rest =>
      if c = obrace then
        let r2 := rest.dropWhile isJsonWsC
        match r2 with
        | c2 :: r3 => if c2 = cbrace then .ok (.obj [], r3) else parseMembers fuel r2 []
        | [] => .error ()
      else if c = '[' then
        let r2 := rest.dropWhile isJsonWsC
        match r2 with
        | ']' :: r3 => .ok (.arr [], r3)
        | _ :: _ => parseElems fuel r2 []
        | [] => .error ()
      else if c = qMark then
        match parseStrBody (rest.length + 1) rest with
        | .ok (s, r) => .ok (.str (String.mk s), r)
        | .error u => .error u
      else if "true".data.isPrefixOf cs1 then .ok (.bool true, cs1.drop 4)
      else if "false".data.isPrefixOf cs1 then .ok (.bool false, cs1.drop 5)
      else if "null".data.isPrefixOf cs1 then .ok (.null, cs1.drop 4)
      else
        match parseJNumber cs1 with
        | .ok (q, r) => .ok (.num (.val q), r)
        | .error u => .error u

/-- Parse the members of a nonempty JSON object (input positioned at the
first key), accumulating bindings with JavaScript duplicate-key semantics. -/
def parseMembers : ℕ → List Char → List (String × JVal) → Except Unit (JVal × List Char)
  | 0, _, _ => .error ()
  | fuel + 1, cs, acc =>
    let cs1 := cs.dropWhile isJsonWsC
    match cs1 with
    | c :: rest =>
      if c = qMark then
        match parseStrBody (rest.length + 1) rest with
        | .ok (k, r1) =>
          let r2 := r1.dropWhile isJsonWsC
          match r2 with
          | ':' :: r3 =>
            match parseVal fuel r3 with
            | .ok (v, r4) =>
              let acc2 := setFieldL acc (String.mk k) v
              let r5 := r4.dropWhile isJsonWsC
              match r5 with
              | ',' :: r6 => parseMembers fuel r6 acc2
              | c2 :: r6 => if c2 = cbrace then .ok (.obj acc2, r6) else .error ()
              | [] => .error ()
            | .error u => .error u
          | _ => .error ()
        | .error u => .error u
      else .error ()
    | [] => .error ()

/-- Parse the elements of a nonempty JSON array (input positioned at the
first element). -/
def parseElems : ℕ → List Char → List JVal → Except Unit (JVal × List Char)
  | 0, _, _ => .error ()
  | fuel + 1, cs, acc =>
    match parseVal fuel cs with
    | .ok (v, r1) =>
      let r2 := r1.dropWhile isJsonWsC
      match r2 with
      | ',' :: r3 => parseElems fuel r3 (acc ++ [v])
      | ']' :: r3 => .ok (.arr (acc ++ [v]), r3)
      | _ => .error ()
    | .error u => .error u

end

/-- `JSON.parse` on a whole text: one value plus trailing whitespace. -/
def parseJsonText (cs : List Char) : Except Unit JVal :=
  match parseVal (cs.length + 1) cs with
  | .ok (v, rest) => if rest.dropWhile isJsonWsC = [] then .ok v else .error ()
  | .error u => .error u

/-! ### The sanitizer `extractJSON` (server.js lines 40-107) -/

/-- The recovery value `{ adSegments: [] }` returned on any failure path. -/
def emptyResult : JVal := .obj [("adSegments", .arr [])]

/-- Lines 73-101 of server.js, applied to the parsed value: a non-array
`adSegments` property gives the recovery value (line 75); a `TypeError`
thrown inside the filter is caught by the enclosing `try/catch` (line 102);
otherwise the parsed object is returned with its `adSegments` property
replaced by the filtered list. -/
def extractFromParsed (parsed : JVal) : JVal :=
  match jsGetField parsed "adSegments" with
  | .arr l =>
    match filterSegs l with
    | .error _ => emptyResult
    | .ok kept => setField parsed "adSegments" (.arr kept)
  | _ => emptyResult

/-- Lines 57-101 of server.js, applied to the extracted span: repair the
span, `JSON.parse` it (a parse exception is caught at line 102, giving the
recovery value), then validate. -/
def extractFromSpan (span : List Char) : JVal :=
  match parseJsonText (fixSpan span) with
  | .error _ => emptyResult
  | .ok parsed => extractFromParsed parsed

/-- `extractJSON` (server.js lines 40-107).  Every failure path — no
JSON-looking span, a `JSON.parse` exception, a non-array `adSegments`, or a
`TypeError` thrown inside the filter (all caught by the enclosing
`try/catch`) — produces `emptyResult`. -/
def extractJSON (text : String) : JVal :=
  match jsonSpan (preclean text.data) with
  | none => emptyResult
  | some span => extractFromSpan span

/-- `extractJSON` applied to an arbitrary JavaScript value: calling
`.trim()` on a non-string throws a `TypeError`, which the enclosing
`try/catch` converts to the recovery value. -/
def extractJSONVal (v : JVal) : JVal :=
  match v with
  | .str s => extractJSON s
  | _ => emptyResult

/-- The `adSegments` property of a sanitizer result, as a list. -/
def adSegsL (v : JVal) : List JVal :=
  match jsGetField v "adSegments" with
  | .arr l => l
  | _ => []

/-! ### `JSON.stringify` (used to re-feed sanitizer output to the sanitizer)

`JSON.stringify` of a sanitizer result: no added whitespace, strings escaped
with the standard short escapes and `\u00XX` for other control characters,
numbers printed in plain decimal (the exponent notation JavaScript uses for
very large/small magnitudes is outside the model, as is NaN — a sanitizer
result never contains NaN in a kept segment, and `serializableB` below
excludes the remaining degenerate cases). -/

/-- Decimal digit character of `d < 10`. -/
def digitChar (d : ℕ) : Char :=
  match d with
  | 0 => '0' | 1 => '1' | 2 => '2' | 3 => '3' | 4 => '4'
  | 5 => '5' | 6 => '6' | 7 => '7' | 8 => '8' | 9 => '9'
  | _ => '0'

/-- Lower-case hex digit character of `d < 16`. -/
def hexChar (d : ℕ) : Char :=
  match d with
  | 0 => '0' | 1 => '1' | 2 => '2' | 3 => '3' | 4 => '4'
  | 5 => '5' | 6 => '6' | 7 => '7' | 8 => '8' | 9 => '9'
  | 10 => 'a' | 11 => 'b' | 12 => 'c' | 13 => 'd' | 14 => 'e' | 15 => 'f'
  | _ => '0'

/-- Base-10 digits of `n`, least significant first; the fuel argument is an
upper bound on the digit count (callers pass `n` itself). -/
def natDigitsAux : ℕ → ℕ → List ℕ
  | 0, _ => []
  | _ + 1, 0 => []
  | fuel + 1, n + 1 => (n + 1) % 10 :: natDigitsAux fuel ((n + 1) / 10)

/-- Decimal notation of a natural number. -/
def printNat (n : ℕ) : List Char :=
  if n = 0 then ['0'] else ((natDigitsAux n n).reverse.map digitChar)

/-- Floor of a nonnegative rational, as a natural number. -/
def qfloorN (q : ℚ) : ℕ := q.num.toNat / q.den

/-- Decimal digits of a fractional part `0 ≤ f < 1`, stopping at the exact
expansion (no trailing zeros); `fuel` caps the digit count. -/
def fracDigitsQ : ℕ → ℚ → List ℕ
  | 0, _ => []
  | fuel + 1, f =>
    if f = 0 then []
    else qfloorN (f * 10) :: fracDigitsQ fuel (f * 10 - (qfloorN (f * 10) : ℚ))

/-- Digit-count cap of the decimal printer. -/
def printFuel : ℕ := 1100

/-- The fractional part of the decimal notation of `0 ≤ n`: nothing when
the expansion is empty, else a dot and the digits. -/
def fracPartChars (n : ℚ) : List Char :=
  if (fracDigitsQ printFuel (n - (qfloorN n : ℚ))).isEmpty then []
  else '.' :: (fracDigitsQ printFuel (n - (qfloorN n : ℚ))).map digitChar

/-- Plain decimal notation of a rational (exact when the denominator divides
`10 ^ printFuel`, cf. `printableQ`). -/
def printNum (q : ℚ) : List Char :=
  (if Rat.blt q 0 then ['-'] else []) ++
    printNat (qfloorN (if Rat.blt q 0 then -q else q)) ++
    fracPartChars (if Rat.blt q 0 then -q else q)

/-- `JSON.stringify` escaping of one string character. -/
def escChar (c : Char) : List Char :=
  if c = qMark then [bSlash, qMark]
  else if c = bSlash then [bSlash, bSlash]
  else if c.toNat = 8 then [bSlash, 'b']
  else if c.toNat = 9 then [bSlash, 't']
  else if c.toNat = 10 then [bSlash, 'n']
  else if c.toNat = 12 then [bSlash, 'f']
  else if c.toNat = 13 then [bSlash, 'r']
  else if c.toNat < 32 then [bSlash, 'u', '0', '0', hexChar (c.toNat / 16), hexChar (c.toNat % 16)]
  else [c]

/-- `JSON.stringify` of a string. -/
def strfyStr (s : String) : List Char :=
  qMark :: (s.data.map escChar).flatten ++ [qMark]

mutual

/-- `JSON.stringify` of a value (`undefined` and NaN stringify as `null`
in the positions the sanitizer result can hold them). -/
def strfyV : JVal → List Char
  | .null => "null".data
  | .undef => "null".data
  | .bool b => if b then "true".data else "false".data
  | .num .nan => "null".data
  | .num (.val q) => printNum q
  | .str s => strfyStr s
  | .arr l => '[' :: strfyL l ++ [']']
  | .obj fs => obrace :: strfyF fs ++ [cbrace]

/-- Comma-separated stringification of array elements. -/
def strfyL : List JVal → List Char
  | [] => []
  | [v] => strfyV v
  | v :: r => strfyV v ++ ',' :: strfyL r

/-- Comma-separated stringification of object members. -/
def strfyF : List (String × JVal) → List Char
  | [] => []
  | [(k, v)] => strfyStr k ++ ':' :: strfyV v
  | (k, v) :: r => strfyStr k ++ ':' :: strfyV v ++ ',' :: strfyF r

end

/-- `JSON.stringify`, as a `String`. -/
def jsStringify (v : JVal) : String := String.mk (strfyV v)

/-- Does the literal `pat` occur as a contiguous substring? -/
def hasSub (pat : List Char) : List Char → Bool
  | [] => pat.isEmpty
  | c :: rest => pat.isPrefixOf (c :: rest) || hasSub pat rest

/-- Does the `ms`-repair pattern for `key` match anywhere? -/
def hasMsPat (key : List Char) : List Char → Bool
  | [] => (matchMs key []).isSome
  | c :: rest => (matchMs key (c :: rest)).isSome || hasMsPat key rest

/-- Is the rational exactly printable by `printNum` (denominator divides
`10 ^ printFuel`)? -/
def printableQ (q : ℚ) : Bool := (10 : ℕ) ^ printFuel % q.den == 0

/-- No duplicate keys in a field list (true of every `JSON.parse` result). -/
def noDupKeysB : List (String × JVal) → Bool
  | [] => true
  | (k, _) :: r => !(r.any (fun p => p.1 = k)) && noDupKeysB r

mutual

/-- Does the value survive a `JSON.stringify`/`JSON.parse` round trip in the
model: no `undefined`, no NaN, and every number exactly printable? -/
def serializableB : JVal → Bool
  | .null => true
  | .undef => false
  | .bool _ => true
  | .num .nan => false
  | .num (.val q) => printableQ q
  | .str _ => true
  | .arr l => serializableL l
  | .obj fs => noDupKeysB fs && serializableF fs

/-- `serializableB` on array elements. -/
def serializableL : List JVal → Bool
  | [] => true
  | v :: r => serializableB v && serializableL r

/-- `serializableB` on object members. -/
def serializableF : List (String × JVal) → Bool
  | [] => true
  | (_, v) :: r => serializableB v && serializableF r

end

/-! ### Truthiness and string coercion (used by the request handler) -/

/-- JavaScript truthiness. -/
def truthy : JVal → Bool
  | .null => false
  | .undef => false
  | .bool b => b
  | .num .nan => false
  | .num (.val q) => if q = 0 then false else true
  | .str s => !s.isEmpty
  | .arr _ => true
  | .obj _ => true

mutual

/-- JavaScript array `toString`: elements joined by commas, with `null` and
`undefined` elements rendered empty. -/
def jsArrJoin : List JVal → String
  | [] => ""
  | [v] => jsElemS v
  | v :: r => jsElemS v ++ "," ++ jsArrJoin r

/-- `ToString` of an array element inside a join. -/
def jsElemS : JVal → String
  | .null => ""
  | .undef => ""
  | .bool b => if b then "true" else "false"
  | .num .nan => "NaN"
  | .num (.val q) => String.mk (printNum q)
  | .str s => s
  | .obj _ => "[object Object]"
  | .arr l => jsArrJoin l

end

/-- JavaScript `ToString`, as applied by the `URL` constructor to its
argument. -/
def jsToString : JVal → String
  | .null => "null"
  | .undef => "undefined"
  | .bool b => if b then "true" else "false"
  | .num .nan => "NaN"
  | .num (.val q) => String.mk (printNum q)
  | .str s => s
  | .obj _ => "[object Object]"
  | .arr l => jsArrJoin l

/-! ### The video-ID extractor (server.js lines 29-37)

`new URL(url)` is a platform builtin; it is abstracted as a function from the
URL string to `none` (constructor threw) or the decoded query parameter list
in order, so that `searchParams.get` is first-match lookup. -/

/-- `urlObj.searchParams.get(k)`: value of the first parameter named `k`,
or null. -/
def searchParamGet (ps : List (String × String)) (k : String) : Option String :=
  (ps.find? (fun p => p.1 = k)).map (fun p => p.2)

/-- `getVideoId` (server.js lines 29-37): `null` when URL parsing throws
(caught in the source) or when the `v` parameter is absent. -/
def getVideoId (parseURL : String → Option (List (String × String)))
    (url : String) : Option String :=
  match parseURL url with
  | none => none
  | some ps => searchParamGet ps "v"

/-! ### The `/analyze-video` handler (server.js lines 110-226) -/

/-- One transcript line as used by the handler. -/
structure TLine where
  offset : ℚ
  text : String

/-- Outcome of `YoutubeTranscript.fetchTranscript`: a thrown error, or a
possibly null/undefined, possibly empty, list. -/
inductive TFetch where
  | threw : TFetch
  | got : Option (List TLine) → TFetch

/-- The external collaborators of the handler. -/
structure Deps where
  parseURL : String → Option (List (String × String))
  fetchTranscript : String → TFetch
  genContent : String → Except Unit String

/-- An error response body `{ error, transcript: [], adSegments: [] }` with
its status code. -/
def resErr (code : ℕ) (msg : String) : ℕ × JVal :=
  (code, .obj [("error", .str msg), ("transcript", .arr []), ("adSegments", .arr [])])

/-- Fixed message of the 400 missing-URL response (line 115). -/
def requiredMsg : String := "Video URL is required"

/-- Fixed message of the 400 invalid-URL response (line 127). -/
def invalidMsg : String := "Invalid YouTube URL"

/-- Fixed message of the 404 fetch-failure response (line 140). -/
def captionsMsg : String :=
  "Could not fetch video transcript. The video might not have captions available."

/-- Fixed message of the 404 empty-transcript response (line 148). -/
def noTransMsg : String := "No transcript available for this video"

/-- Fixed message of the catch-all 500 response (line 221). -/
def unexpectedMsg : String := "An unexpected error occurred while analyzing the video"

/-- `transcript.map(t => `[<offset>s]: <text>`).join('\n')` (line 155). -/
def transcriptTextOf (ts : List TLine) : String :=
  String.intercalate "\n"
    (ts.map (fun t => "[" ++ String.mk (printNum t.offset) ++ "s]: " ++ t.text))

/-- The fixed prompt template (lines 161-194) around the transcript text. -/
def promptOf (ts : List TLine) : String :=
  "You are an AI trained to analyze YouTube video transcripts and identify sponsored segments or advertisements.\n\nTask: Analyze the following transcript and identify any sponsored segments or advertisements.\n\nInstructions:\n1. Look for phrases like:\n   - \"this video is sponsored by\"\n   - \"thanks to our sponsor\"\n   - \"special thanks to\"\n   - \"check out\"\n   - \"use code\"\n   - \"discount code\"\n   - \"affiliate link\"\n2. For each ad segment found, note:\n   - The start timestamp (as a number in seconds, without \"s\" suffix)\n   - The end timestamp (as a number in seconds, without \"s\" suffix)\n   - The relevant text mentioning the sponsorship\n\nFormat your response as ONLY a JSON object with this exact structure:\n\x7b\n  \"adSegments\": [\n    \x7b\n      \"start\": 295.32,    // seconds as a number, no \"s\" suffix\n      \"end\": 359.16,      // seconds as a number, no \"s\" suffix\n      \"text\": \"string\"    // the sponsorship text\n    \x7d\n  ]\n\x7d\n\nDo not include any other text in your response, only the JSON object.\nDo not add \"s\" suffix to timestamps - they should be plain numbers.\n\nTranscript:\n" ++ transcriptTextOf ts

/-- The transcript as serialized into the 200 response body. -/
def encodeTranscript (ts : List TLine) : JVal :=
  .arr (ts.map (fun t => .obj [("offset", .num (.val t.offset)), ("text", .str t.text)]))

/-- Lines 154-217: build the prompt, call the AI client (a thrown error is
caught by the outer catch-all, line 218), sanitize, respond 200. -/
def stage4AI (d : Deps) (ts : List TLine) : ℕ × JVal :=
  match d.genContent (promptOf ts) with
  | .error _ => resErr 500 unexpectedMsg
  | .ok txt =>
    let analysis := extractJSON txt
    (200, .obj [("transcript", encodeTranscript ts),
                ("adSegments", jsGetField analysis "adSegments")])

/-- Lines 133-152: fetch the transcript; a thrown error is 404 with
`captionsMsg`; a null/undefined or empty result is 404 with `noTransMsg`. -/
def stage3Transcript (d : Deps) (vid : String) : ℕ × JVal :=
  match d.fetchTranscript vid with
  | .threw => resErr 404 captionsMsg
  | .got none => resErr 404 noTransMsg
  | .got (some ts) => if ts.isEmpty then resErr 404 noTransMsg else stage4AI d ts

/-- Lines 123-131: extract the video ID; `null` or the empty string (both
falsy) are 400 with `invalidMsg`. -/
def stage2Vid (d : Deps) (url : String) : ℕ × JVal :=
  match getVideoId d.parseURL url with
  | none => resErr 400 invalidMsg
  | some vid => if vid = "" then resErr 400 invalidMsg else stage3Transcript d vid

/-- The `/analyze-video` handler (lines 110-226).  Destructuring
`req.body` throws on null/undefined bodies (caught by the catch-all);
a falsy `videoUrl` is 400 with `requiredMsg`; otherwise the URL string
(after `ToString` coercion by the `URL` constructor) flows to `stage2Vid`. -/
def handler (d : Deps) (body : JVal) : ℕ × JVal :=
  match body with
  | .null => resErr 500 unexpectedMsg
  | .undef => resErr 500 unexpectedMsg
  | _ =>
    let v := jsGetField body "videoUrl"
    if truthy v then stage2Vid d (jsToString v) else resErr 400 requiredMsg

/-! ### Specification-side predicates (for the refinement claims) -/

/-- The specification wording of segment validity (spec 4.3 step 7, claims
C2/C3): after coercion, `start` and `end` evaluate to actual numbers `a`
and `b` (not NaN), `text` is a string, `a ≥ 0`, and `b > a`. -/
def specValid (e : JVal) : Prop :=
  ∃ a b : ℚ, toNumber (jsGetField e "start") = .val a ∧
    toNumber (jsGetField e "end") = .val b ∧
    (jsGetField e "text").isStrB = true ∧ 0 ≤ a ∧ a < b

/-- The data-model invariant claimed in spec section 3 (claim C3): the
`start` and `end` properties are plain numbers with `start ≥ 0` and
`end > start`, and `text` is a non-empty string. -/
def specInvariantNE (e : JVal) : Prop :=
  ∃ a b : ℚ, jsGetField e "start" = .num (.val a) ∧
    jsGetField e "end" = .num (.val b) ∧ 0 ≤ a ∧ a < b ∧
    ∃ t : String, jsGetField e "text" = .str t ∧ t ≠ ""


/-! ### Auxiliary definitions for the verification -/

/-- Little-endian base-10 value of a digit list. -/
def natVal (ds : List ℕ) : ℕ := ds.foldr (fun d a => d + 10 * a) 0

/-- Most-significant-first base-10 value of a digit list. -/
def msdValN (ds : List ℕ) : ℕ := ds.foldl (fun a d => a * 10 + d) 0

/-- The characters that can legally follow a serialized JSON value inside a
serialized document: nothing, or a comma, a closing bracket, or a closing
brace. -/
def SepOK (rest : List Char) : Prop :=
  match rest with
  | [] => True
  | c :: _ => c = ',' ∨ c = ']' ∨ c = cbrace

mutual

/-- Fuel needed by `parseVal` to parse the stringification of a value. -/
def jsize : JVal → ℕ
  | .null => 1
  | .undef => 1
  | .bool _ => 1
  | .num _ => 1
  | .str _ => 1
  | .arr l => jsizeL l + 1
  | .obj fs => jsizeF fs + 1

/-- Fuel needed by `parseElems` for the remaining elements. -/
def jsizeL : List JVal → ℕ
  | [] => 0
  | v :: r => max (jsize v) (jsizeL r) + 1

/-- Fuel needed by `parseMembers` for the remaining members. -/
def jsizeF : List (String × JVal) → ℕ
  | [] => 0
  | (_, v) :: r => max (jsize v) (jsizeF r) + 1

end

/-! ### Lemmas: property access and update -/

theorem lookupField_setFieldL (fs : List (String × JVal)) (k : String) (v : JVal) :
    lookupField (setFieldL fs k v) k = some v := by
  induction fs with
  | nil => simp [setFieldL, lookupField]
  | cons p r ih =>
    obtain ⟨k2, v2⟩ := p
    by_cases h : k2 = k
    · subst h; simp [setFieldL, lookupField]
    · simp [setFieldL, lookupField, h, ih]

theorem lookupField_setFieldL_ne (fs : List (String × JVal)) (k k2 : String)
    (v : JVal) (hne : k2 ≠ k) :
    lookupField (setFieldL fs k v) k2 = lookupField fs k2 := by
  induction fs with
  | nil => simp [setFieldL, lookupField, Ne.symm hne]
  | cons p r ih =>
    obtain ⟨k3, v3⟩ := p
    by_cases h : k3 = k
    · subst h; simp [setFieldL, lookupField, Ne.symm hne]
    · by_cases h2 : k3 = k2 <;> simp [setFieldL, lookupField, h, h2, ih, hne]

theorem setFieldL_self (fs : List (String × JVal)) (k : String) (v : JVal)
    (h : lookupField fs k = some v) : setFieldL fs k v = fs := by
  induction fs with
  | nil => simp [lookupField] at h
  | cons p r ih =>
    obtain ⟨k2, v2⟩ := p
    by_cases hk : k2 = k
    · subst hk
      simp [lookupField] at h
      simp [setFieldL, h]
    · simp [lookupField, hk] at h
      simp [setFieldL, hk, ih h]

theorem jsGetField_setField (fs : List (String × JVal)) (k : String) (v : JVal) :
    jsGetField (setField (.obj fs) k v) k = v := by
  simp [jsGetField, setField, lookupField_setFieldL]

theorem jsGetField_setField_ne (fs : List (String × JVal)) (k k2 : String)
    (v : JVal) (hne : k2 ≠ k) :
    jsGetField (setField (.obj fs) k v) k2 = jsGetField (.obj fs) k2 := by
  simp [jsGetField, setField, lookupField_setFieldL_ne fs k k2 v hne]

theorem jsGetField_nonobj (v : JVal) (k : String) (h : v.isObjB = false) :
    jsGetField v k = .undef := by
  cases v <;> simp_all [JVal.isObjB, jsGetField]

theorem setField_obj (fs : List (String × JVal)) (k : String) (v : JVal) :
    setField (.obj fs) k v = .obj (setFieldL fs k v) := rfl

/-! ### Lemmas: coercion and validation -/

theorem coerceStart_nonobj (e : JVal) (h : e.isObjB = false) : coerceStart e = e := by
  rw [coerceStart, jsGetField_nonobj e "start" h]

theorem coerceEnd_nonobj (e : JVal) (h : e.isObjB = false) : coerceEnd e = e := by
  rw [coerceEnd, jsGetField_nonobj e "end" h]

theorem coerceSeg_nonobj (e : JVal) (h : e.isObjB = false) : coerceSeg e = e := by
  rw [coerceSeg, coerceStart_nonobj e h, coerceEnd_nonobj e h]

theorem coerceStart_isObj (e : JVal) (h : e.isObjB = true) :
    (coerceStart e).isObjB = true := by
  rw [coerceStart]
  split
  · obtain ⟨fs, rfl⟩ : ∃ fs, e = .obj fs := by cases e <;> simp_all [JVal.isObjB]
    simp [setField, JVal.isObjB]
  · exact h

theorem coerceEnd_isObj (e : JVal) (h : e.isObjB = true) :
    (coerceEnd e).isObjB = true := by
  rw [coerceEnd]
  split
  · obtain ⟨fs, rfl⟩ : ∃ fs, e = .obj fs := by cases e <;> simp_all [JVal.isObjB]
    simp [setField, JVal.isObjB]
  · exact h

theorem coerceSeg_isObj (e : JVal) (h : e.isObjB = true) :
    (coerceSeg e).isObjB = true :=
  coerceEnd_isObj _ (coerceStart_isObj e h)

theorem segOk_isObj (e : JVal) (h : segOk e = true) : e.isObjB = true := by
  by_contra hno
  have : jsGetField e "text" = .undef := jsGetField_nonobj e "text" (by simpa using hno)
  simp [segOk, this, JVal.isStrB] at h

theorem coerceStart_start_notStr (e : JVal) :
    (jsGetField (coerceStart e) "start").isStrB = false := by
  rw [coerceStart]
  cases h1 : jsGetField e "start" with
  | str s =>
    obtain ⟨fs, rfl⟩ : ∃ fs, e = .obj fs := by
      have : e.isObjB = true := by
        by_contra hno
        rw [jsGetField_nonobj e "start" (by simpa using hno)] at h1
        cases h1
      cases e <;> simp_all [JVal.isObjB]
    rw [jsGetField_setField]
    rfl
  | null => simp [h1, JVal.isStrB]
  | undef => simp [h1, JVal.isStrB]
  | bool b => simp [h1, JVal.isStrB]
  | num n => simp [h1, JVal.isStrB]
  | arr l => simp [h1, JVal.isStrB]
  | obj fs2 => simp [h1, JVal.isStrB]

theorem coerceStart_end_eq (e : JVal) :
    jsGetField (coerceStart e) "end" = jsGetField e "end" := by
  rw [coerceStart]
  cases h1 : jsGetField e "start" with
  | str s =>
    obtain ⟨fs, rfl⟩ : ∃ fs, e = .obj fs := by
      have : e.isObjB = true := by
        by_contra hno
        rw [jsGetField_nonobj e "start" (by simpa using hno)] at h1
        cases h1
      cases e <;> simp_all [JVal.isObjB]
    exact jsGetField_setField_ne fs "start" "end" _ (by decide)
  | null => rfl
  | undef => rfl
  | bool b => rfl
  | num n => rfl
  | arr l => rfl
  | obj fs2 => rfl

theorem coerceStart_text_eq (e : JVal) :
    jsGetField (coerceStart e) "text" = jsGetField e "text" := by
  rw [coerceStart]
  cases h1 : jsGetField e "start" with
  | str s =>
    obtain ⟨fs, rfl⟩ : ∃ fs, e = .obj fs := by
      have : e.isObjB = true := by
        by_contra hno
        rw [jsGetField_nonobj e "start" (by simpa using hno)] at h1
        cases h1
      cases e <;> simp_all [JVal.isObjB]
    exact jsGetField_setField_ne fs "start" "text" _ (by decide)
  | null => rfl
  | undef => rfl
  | bool b => rfl
  | num n => rfl
  | arr l => rfl
  | obj fs2 => rfl

theorem coerceEnd_start_eq (e : JVal) :
    jsGetField (coerceEnd e) "start" = jsGetField e "start" := by
  rw [coerceEnd]
  cases h1 : jsGetField e "end" with
  | str s =>
    obtain ⟨fs, rfl⟩ : ∃ fs, e = .obj fs := by
      have : e.isObjB = true := by
        by_contra hno
        rw [jsGetField_nonobj e "end" (by simpa using hno)] at h1
        cases h1
      cases e <;> simp_all [JVal.isObjB]
    exact jsGetField_setField_ne fs "end" "start" _ (by decide)
  | null => rfl
  | undef => rfl
  | bool b => rfl
  | num n => rfl
  | arr l => rfl
  | obj fs2 => rfl

theorem coerceEnd_text_eq (e : JVal) :
    jsGetField (coerceEnd e) "text" = jsGetField e "text" := by
  rw [coerceEnd]
  cases h1 : jsGetField e "end" with
  | str s =>
    obtain ⟨fs, rfl⟩ : ∃ fs, e = .obj fs := by
      have : e.isObjB = true := by
        by_contra hno
        rw [jsGetField_nonobj e "end" (by simpa using hno)] at h1
        cases h1
      cases e <;> simp_all [JVal.isObjB]
    exact jsGetField_setField_ne fs "end" "text" _ (by decide)
  | null => rfl
  | undef => rfl
  | bool b => rfl
  | num n => rfl
  | arr l => rfl
  | obj fs2 => rfl

theorem coerceEnd_end_notStr (e : JVal) :
    (jsGetField (coerceEnd e) "end").isStrB = false := by
  rw [coerceEnd]
  cases h1 : jsGetField e "end" with
  | str s =>
    obtain ⟨fs, rfl⟩ : ∃ fs, e = .obj fs := by
      have : e.isObjB = true := by
        by_contra hno
        rw [jsGetField_nonobj e "end" (by simpa using hno)] at h1
        cases h1
      cases e <;> simp_all [JVal.isObjB]
    rw [jsGetField_setField]
    rfl
  | null => simp [h1, JVal.isStrB]
  | undef => simp [h1, JVal.isStrB]
  | bool b => simp [h1, JVal.isStrB]
  | num n => simp [h1, JVal.isStrB]
  | arr l => simp [h1, JVal.isStrB]
  | obj fs2 => simp [h1, JVal.isStrB]

theorem coerceSeg_start_notStr (e : JVal) :
    (jsGetField (coerceSeg e) "start").isStrB = false := by
  rw [coerceSeg, coerceEnd_start_eq]
  exact coerceStart_start_notStr e

theorem coerceSeg_end_notStr (e : JVal) :
    (jsGetField (coerceSeg e) "end").isStrB = false :=
  coerceEnd_end_notStr _

theorem coerceStart_fix (e : JVal)
    (h : (jsGetField e "start").isStrB = false) : coerceStart e = e := by
  rw [coerceStart]
  cases h1 : jsGetField e "start" <;> simp_all [JVal.isStrB]

theorem coerceEnd_fix (e : JVal)
    (h : (jsGetField e "end").isStrB = false) : coerceEnd e = e := by
  rw [coerceEnd]
  cases h1 : jsGetField e "end" <;> simp_all [JVal.isStrB]

theorem coerceSeg_idem (e : JVal) : coerceSeg (coerceSeg e) = coerceSeg e := by
  rw [show coerceSeg (coerceSeg e) = coerceEnd (coerceStart (coerceSeg e)) from rfl]
  rw [coerceStart_fix _ (coerceSeg_start_notStr e)]
  rw [coerceEnd_fix _ (coerceSeg_end_notStr e)]

theorem filterSegs_cons_ne (e : JVal) (l : List JVal)
    (h1 : e ≠ .null) (h2 : e ≠ .undef) :
    filterSegs (e :: l) =
      match filterSegs l with
      | .error u => .error u
      | .ok r => .ok (if segOk (coerceSeg e) then coerceSeg e :: r else r) := by
  cases e
  · exact absurd rfl h1
  · exact absurd rfl h2
  · rfl
  · rfl
  · rfl
  · rfl
  · rfl

theorem segOk_nonobj (e : JVal) (h : e.isObjB = false) : segOk e = false := by
  rw [segOk, jsGetField_nonobj e "start" h]
  rfl

theorem filterSegs_mem (l : List JVal) (kept : List JVal)
    (h : filterSegs l = .ok kept) :
    ∀ e ∈ kept, segOk e = true ∧ coerceSeg e = e := by
  induction l generalizing kept with
  | nil =>
    rw [filterSegs] at h
    injection h with h2
    subst h2
    simp
  | cons e0 rest ih =>
    by_cases hn : e0 = JVal.null
    · subst hn; rw [filterSegs] at h; cases h
    · by_cases hu : e0 = JVal.undef
      · subst hu; rw [filterSegs] at h; cases h
      · rw [filterSegs_cons_ne e0 rest hn hu] at h
        cases hr : filterSegs rest with
        | error u => rw [hr] at h; cases h
        | ok r =>
          rw [hr] at h
          injection h with h2
          subst h2
          intro e he
          by_cases hs : segOk (coerceSeg e0) = true
          · rw [if_pos hs] at he
            rcases List.mem_cons.mp he with rfl | hmem
            · exact ⟨hs, coerceSeg_idem e0⟩
            · exact ih r hr e hmem
          · rw [if_neg hs] at he
            exact ih r hr e he

theorem filterSegs_fixed (l : List JVal)
    (h : ∀ e ∈ l, segOk e = true ∧ coerceSeg e = e) : filterSegs l = .ok l := by
  induction l with
  | nil => rfl
  | cons e rest ih =>
    obtain ⟨hs, hc⟩ := h e (by simp)
    have hobj := segOk_isObj e hs
    have hne : e ≠ .null := by rintro rfl; simp [JVal.isObjB] at hobj
    have hnu : e ≠ .undef := by rintro rfl; simp [JVal.isObjB] at hobj
    rw [filterSegs_cons_ne e rest hne hnu, ih (fun x hx => h x (by simp [hx]))]
    simp [hc, hs]

theorem filterSegs_all_objs (l : List JVal) (h : ∀ e ∈ l, e.isObjB = true) :
    filterSegs l = .ok ((l.map coerceSeg).filter segOk) := by
  induction l with
  | nil => rfl
  | cons e rest ih =>
    have he := h e (by simp)
    have hne : e ≠ .null := by rintro rfl; simp [JVal.isObjB] at he
    have hnu : e ≠ .undef := by rintro rfl; simp [JVal.isObjB] at he
    rw [filterSegs_cons_ne e rest hne hnu, ih (fun x hx => h x (by simp [hx]))]
    simp only [List.map, List.filter]
    cases segOk (coerceSeg e) <;> simp

theorem filterSegs_null_mem (l : List JVal) (h : JVal.null ∈ l) :
    filterSegs l = .error () := by
  induction l with
  | nil => cases h
  | cons e rest ih =>
    by_cases hn : e = JVal.null
    · subst hn; rw [filterSegs]
    · by_cases hu : e = JVal.undef
      · subst hu; rw [filterSegs]
      · have hmem : JVal.null ∈ rest := by
          rcases List.mem_cons.mp h with h2 | h2
          · exact absurd h2.symm hn
          · exact h2
        rw [filterSegs_cons_ne e rest hn hu, ih hmem]

theorem filterSegs_cons_nonobj (e : JVal) (l : List JVal)
    (h : e.isObjB = false) (h1 : e ≠ .null) (h2 : e ≠ .undef) :
    filterSegs (e :: l) = filterSegs l := by
  rw [filterSegs_cons_ne e l h1 h2, coerceSeg_nonobj e h, segOk_nonobj e h]
  cases filterSegs l <;> simp

theorem segOk_iff_specValid (e : JVal) : segOk e = true ↔ specValid e := by
  unfold segOk specValid
  cases ha : toNumber (jsGetField e "start") with
  | nan =>
    simp [JNum.isNaNb]
  | val a =>
    cases hb : toNumber (jsGetField e "end") with
    | nan => simp [JNum.isNaNb, jgeB, jgtB]
    | val b =>
      have hge : (jgeB (JNum.val a) (JNum.val 0) = true) ↔ 0 ≤ a := by
        show (!Rat.blt a 0) = true ↔ 0 ≤ a
        rw [Bool.not_eq_true']
        constructor
        · intro hf
          by_contra hlt
          rw [not_le] at hlt
          exact absurd hf (by rw [show Rat.blt a 0 = true from hlt]; simp)
        · intro hle
          by_contra hne
          have : Rat.blt a 0 = true := by
            cases hx : Rat.blt a 0
            · exact absurd hx hne
            · rfl
          exact absurd hle (not_le.mpr this)
      have hgt : (jgtB (JNum.val b) (JNum.val a) = true) ↔ a < b := by
        show Rat.blt a b = true ↔ a < b
        exact Iff.rfl.symm
      constructor
      · intro h
        simp only [JNum.isNaNb, Bool.not_false, Bool.true_and, Bool.and_eq_true] at h
        obtain ⟨⟨hstr, hge2⟩, hgt2⟩ := h
        exact ⟨a, b, rfl, rfl, hstr, hge.mp hge2, hgt.mp hgt2⟩
      · rintro ⟨a2, b2, ha2, hb2, hstr, hge2, hgt2⟩
        injection ha2 with ha3
        injection hb2 with hb3
        subst ha3
        subst hb3
        simp only [JNum.isNaNb, Bool.not_false, Bool.true_and, Bool.and_eq_true]
        exact ⟨⟨hstr, hge.mpr hge2⟩, hgt.mpr hgt2⟩

/-! ### Lemmas: the shape of sanitizer results -/

theorem extractJSON_span_none (s : String) (h : jsonSpan (preclean s.data) = none) :
    extractJSON s = emptyResult := by
  unfold extractJSON
  rw [h]

theorem extractJSON_span_some (s : String) (span : List Char)
    (h : jsonSpan (preclean s.data) = some span) :
    extractJSON s = extractFromSpan span := by
  unfold extractJSON
  rw [h]

theorem extractFromSpan_err (span : List Char)
    (h : parseJsonText (fixSpan span) = .error ()) :
    extractFromSpan span = emptyResult := by
  unfold extractFromSpan
  rw [h]

theorem extractFromSpan_ok (span : List Char) (parsed : JVal)
    (h : parseJsonText (fixSpan span) = .ok parsed) :
    extractFromSpan span = extractFromParsed parsed := by
  unfold extractFromSpan
  rw [h]

theorem extractFromParsed_arr (parsed : JVal) (l : List JVal)
    (h : jsGetField parsed "adSegments" = .arr l) :
    extractFromParsed parsed =
      match filterSegs l with
      | .error _ => emptyResult
      | .ok kept => setField parsed "adSegments" (.arr kept) := by
  unfold extractFromParsed
  rw [h]

theorem extractFromParsed_nonarr (parsed : JVal)
    (h : ∀ l : List JVal, jsGetField parsed "adSegments" ≠ .arr l) :
    extractFromParsed parsed = emptyResult := by
  unfold extractFromParsed
  cases hget : jsGetField parsed "adSegments" with
  | arr l => exact absurd hget (h l)
  | null => rfl
  | undef => rfl
  | bool b => rfl
  | num n => rfl
  | str st => rfl
  | obj fs => rfl

theorem extractFromParsed_cases (parsed : JVal) :
    extractFromParsed parsed = emptyResult ∨
    ∃ fs kept, parsed = .obj fs ∧
      extractFromParsed parsed = .obj (setFieldL fs "adSegments" (.arr kept)) ∧
      ∃ l, lookupField fs "adSegments" = some (.arr l) ∧ filterSegs l = .ok kept := by
  cases hget : jsGetField parsed "adSegments" with
  | arr l =>
    rw [extractFromParsed_arr parsed l hget]
    cases hf : filterSegs l with
    | error u => exact Or.inl rfl
    | ok kept =>
      right
      obtain ⟨fs, rfl⟩ : ∃ fs, parsed = .obj fs := by
        cases parsed <;> simp [jsGetField] at hget
        exact ⟨_, rfl⟩
      refine ⟨fs, kept, rfl, rfl, l, ?_, hf⟩
      simp only [jsGetField] at hget
      cases hlk : lookupField fs "adSegments" with
      | none => rw [hlk] at hget; cases hget
      | some v => rw [hlk] at hget; simp at hget; rw [hget]
  | null => exact Or.inl (extractFromParsed_nonarr parsed (by simp [hget]))
  | undef => exact Or.inl (extractFromParsed_nonarr parsed (by simp [hget]))
  | bool b => exact Or.inl (extractFromParsed_nonarr parsed (by simp [hget]))
  | num n => exact Or.inl (extractFromParsed_nonarr parsed (by simp [hget]))
  | str st => exact Or.inl (extractFromParsed_nonarr parsed (by simp [hget]))
  | obj fs => exact Or.inl (extractFromParsed_nonarr parsed (by simp [hget]))

theorem extractJSON_cases (s : String) :
    extractJSON s = emptyResult ∨
    ∃ fs kept, extractJSON s = .obj (setFieldL fs "adSegments" (.arr kept)) ∧
      ∃ l, lookupField fs "adSegments" = some (.arr l) ∧ filterSegs l = .ok kept := by
  cases h1 : jsonSpan (preclean s.data) with
  | none => exact Or.inl (extractJSON_span_none s h1)
  | some span =>
    rw [extractJSON_span_some s span h1]
    cases h2 : parseJsonText (fixSpan span) with
    | error u => exact Or.inl (extractFromSpan_err span (by rw [h2]))
    | ok parsed =>
      rw [extractFromSpan_ok span parsed h2]
      rcases extractFromParsed_cases parsed with h | ⟨fs, kept, _, h3, hrest⟩
      · exact Or.inl h
      · exact Or.inr ⟨fs, kept, h3, hrest⟩

theorem jsGetField_emptyResult : jsGetField emptyResult "adSegments" = .arr [] := by
  simp [emptyResult, jsGetField, lookupField]

theorem extractJSON_adSegments (s : String) :
    ∃ l : List JVal, jsGetField (extractJSON s) "adSegments" = .arr l := by
  rcases extractJSON_cases s with h | ⟨fs, kept, h, _⟩
  · exact ⟨[], by rw [h]; exact jsGetField_emptyResult⟩
  · refine ⟨kept, ?_⟩
    rw [h]
    have := jsGetField_setField fs "adSegments" (.arr kept)
    simpa [setField] using this

theorem extractJSON_out_valid (s : String) :
    ∀ e ∈ adSegsL (extractJSON s), segOk e = true ∧ coerceSeg e = e := by
  rcases extractJSON_cases s with h | ⟨fs, kept, h, l, _, hf⟩
  · rw [h]
    intro e he
    simp [adSegsL, jsGetField_emptyResult] at he
  · intro e he
    rw [h] at he
    have hget : jsGetField (JVal.obj (setFieldL fs "adSegments" (.arr kept))) "adSegments" =
        .arr kept := by
      have := jsGetField_setField fs "adSegments" (.arr kept)
      simpa [setField] using this
    rw [adSegsL, hget] at he
    exact filterSegs_mem l kept hf e he

-- smoke test for kernel computation of a concrete counterexample (to be removed)
example : adSegsL (extractJSON "\x7b\"adSegments\":[\x7b\"start\":0,\"end\":1,\"text\":\"\"\x7d]\x7d") =
    [JVal.obj [("start", .num (.val 0)), ("end", .num (.val 1)), ("text", .str "")]] := by
  with_unfolding_all rfl

/-! ### Claims C1, C2, C3, C10 -/

/-- C1: `extractJSON` never throws and always returns a well-formed
`AnalysisResult`: for every input its result carries an `adSegments` array;
whenever the repaired span fails to parse as JSON the result is
`{ adSegments: [] }`; the empty input string gives `{ adSegments: [] }`;
and a non-string input (whose `.trim()` call throws a `TypeError` into the
enclosing `try/catch`) also gives `{ adSegments: [] }`. -/
theorem c1_sanitizer_total :
    (∀ s : String, ∃ l : List JVal, jsGetField (extractJSON s) "adSegments" = .arr l) ∧
    (∀ (s : String) (span : List Char), jsonSpan (preclean s.data) = some span →
      parseJsonText (fixSpan span) = .error () → extractJSON s = emptyResult) ∧
    extractJSON "" = emptyResult ∧
    (∀ v : JVal, v.isStrB = false → extractJSONVal v = emptyResult) := by
  refine ⟨extractJSON_adSegments, ?_, ?_, ?_⟩
  · intro s span h1 h2
    rw [extractJSON_span_some s span h1]
    exact extractFromSpan_err span h2
  · exact extractJSON_span_none "" rfl
  · intro v hv
    cases v with
    | str s => simp [JVal.isStrB] at hv
    | null => rfl
    | undef => rfl
    | bool b => rfl
    | num n => rfl
    | arr l => rfl
    | obj fs => rfl

/-- Witness for C1 at concrete inputs: the text `pre \x7boops\x7d` has a
JSON-looking span that fails to parse, so the sanitizer returns the empty
result; `null` input is likewise recovered. -/
theorem c1_witness :
    jsonSpan (preclean "pre \x7boops\x7d".data) = some "\x7boops\x7d".data ∧
    parseJsonText (fixSpan "\x7boops\x7d".data) = .error () ∧
    extractJSON "pre \x7boops\x7d" = emptyResult ∧
    JVal.null.isStrB = false ∧ extractJSONVal JVal.null = emptyResult := by
  refine ⟨by with_unfolding_all rfl, by with_unfolding_all rfl, ?_, rfl, ?_⟩
  · exact c1_sanitizer_total.2.1 "pre \x7boops\x7d" "\x7boops\x7d".data
      (by with_unfolding_all rfl) (by with_unfolding_all rfl)
  · exact c1_sanitizer_total.2.2.2 JVal.null rfl

/-- C2: on an `adSegments` array of objects the filter runs without an
exception and keeps, in order, exactly the in-place-coerced elements that
pass the validity test; the test holds iff the spec-side validity predicate
(`start`/`end` numerically non-NaN, `text` a string, `start ≥ 0`,
`end > start`) holds; segments with `end ≤ start` such as
`\x7bstart:10, end:5, text:"x"\x7d` are dropped silently. -/
theorem c2_filter_semantics :
    (∀ l : List JVal, (∀ e ∈ l, e.isObjB = true) →
      filterSegs l = .ok ((l.map coerceSeg).filter segOk)) ∧
    (∀ e : JVal, segOk e = true ↔ specValid e) ∧
    adSegsL (extractJSON
      "\x7b\"adSegments\":[\x7b\"start\":10,\"end\":5,\"text\":\"x\"\x7d]\x7d") = [] :=
  ⟨filterSegs_all_objs, segOk_iff_specValid, by with_unfolding_all rfl⟩

/-- Witness for C2 at a concrete two-element array: the `end ≤ start`
segment is dropped and the valid one (with its string `start` coerced) is
kept. -/
theorem c2_witness :
    filterSegs
        [JVal.obj [("start", .num (.val 10)), ("end", .num (.val 5)), ("text", .str "x")],
         JVal.obj [("start", .str "1"), ("end", .num (.val 2)), ("text", .str "y")]] =
      .ok (((
        [JVal.obj [("start", .num (.val 10)), ("end", .num (.val 5)), ("text", .str "x")],
         JVal.obj [("start", .str "1"), ("end", .num (.val 2)), ("text", .str "y")]] :
          List JVal).map coerceSeg).filter segOk) ∧
    specValid (JVal.obj [("start", .num (.val 1)), ("end", .num (.val 2)), ("text", .str "y")]) := by
  constructor
  · refine c2_filter_semantics.1 _ ?_
    intro e he
    rcases List.mem_cons.mp he with rfl | he2
    · rfl
    · rcases List.mem_cons.mp he2 with rfl | he3
      · rfl
      · cases he3
  · exact (c2_filter_semantics.2.1 _).mp (by with_unfolding_all rfl)

/-- C3 counterexample: the claimed output invariant includes `text` being a
NON-empty string, but the code keeps a segment whose `text` is the empty
string, so the invariant as claimed fails. -/
theorem c3_counterexample :
    ¬ (∀ (s : String), ∀ e ∈ adSegsL (extractJSON s), specInvariantNE e) := by
  intro h
  have hmem : (JVal.obj [("start", .num (.val 0)), ("end", .num (.val 1)), ("text", .str "")]) ∈
      adSegsL (extractJSON "\x7b\"adSegments\":[\x7b\"start\":0,\"end\":1,\"text\":\"\"\x7d]\x7d") := by
    rw [show adSegsL (extractJSON
        "\x7b\"adSegments\":[\x7b\"start\":0,\"end\":1,\"text\":\"\"\x7d]\x7d") =
      [JVal.obj [("start", .num (.val 0)), ("end", .num (.val 1)), ("text", .str "")]] from
      by with_unfolding_all rfl]
    exact List.mem_singleton.mpr rfl
  obtain ⟨a, b, _, _, _, _, t, ht, hne⟩ := h _ _ hmem
  rw [show jsGetField
      (JVal.obj [("start", .num (.val 0)), ("end", .num (.val 1)), ("text", .str "")])
      "text" = .str "" from by with_unfolding_all rfl] at ht
  injection ht with ht2
  exact hne ht2.symm

/-- C3 amended: every segment in the sanitizer's output passes the code's
own validity test — numerically (after JavaScript coercion) `start ≥ 0` and
`end > start`, with `text` a string that MAY be empty — is no further
coerced, and segments failing the test are dropped (every kept segment
passed the test itself). -/
theorem c3_output_invariant :
    (∀ (s : String), ∀ e ∈ adSegsL (extractJSON s), specValid e ∧ coerceSeg e = e) ∧
    (∀ (l kept : List JVal), filterSegs l = .ok kept → ∀ e ∈ kept, segOk e = true) := by
  constructor
  · intro s e he
    obtain ⟨h1, h2⟩ := extractJSON_out_valid s e he
    exact ⟨(segOk_iff_specValid e).mp h1, h2⟩
  · intro l kept h e he
    exact (filterSegs_mem l kept h e he).1

/-- Witness for C3 (amended) at a concrete input with one kept segment. -/
theorem c3_witness :
    (JVal.obj [("start", .num (.val 0)), ("end", .num (.val 2)), ("text", .str "a")]) ∈
      adSegsL (extractJSON
        "\x7b\"adSegments\":[\x7b\"start\":0,\"end\":2,\"text\":\"a\"\x7d]\x7d") ∧
    specValid (JVal.obj [("start", .num (.val 0)), ("end", .num (.val 2)), ("text", .str "a")]) := by
  have hmem : (JVal.obj [("start", .num (.val 0)), ("end", .num (.val 2)), ("text", .str "a")]) ∈
      adSegsL (extractJSON
        "\x7b\"adSegments\":[\x7b\"start\":0,\"end\":2,\"text\":\"a\"\x7d]\x7d") := by
    rw [show adSegsL (extractJSON
        "\x7b\"adSegments\":[\x7b\"start\":0,\"end\":2,\"text\":\"a\"\x7d]\x7d") =
      [JVal.obj [("start", .num (.val 0)), ("end", .num (.val 2)), ("text", .str "a")]] from
      by with_unfolding_all rfl]
    exact List.mem_singleton.mpr rfl
  exact ⟨hmem, (c3_output_invariant.1 _ _ hmem).1⟩

/-- C10 counterexample: a non-object, non-null element (the number `5`) in
`adSegments` does NOT make the sanitizer return `\x7b adSegments: [] \x7d`
for the whole input — it is dropped individually and the valid object next
to it is kept. -/
theorem c10_counterexample :
    ¬ (∀ (s : String) (span : List Char) (parsed : JVal) (l : List JVal),
        jsonSpan (preclean s.data) = some span →
        parseJsonText (fixSpan span) = .ok parsed →
        jsGetField parsed "adSegments" = .arr l →
        (∃ e ∈ l, e.isObjB = false) →
        extractJSON s = emptyResult) := by
  intro h
  have h1 := h "\x7b\"adSegments\":[5,\x7b\"start\":0,\"end\":1,\"text\":\"a\"\x7d]\x7d"
      "\x7b\"adSegments\":[5,\x7b\"start\":0,\"end\":1,\"text\":\"a\"\x7d]\x7d".data
      (JVal.obj [("adSegments", .arr [.num (.val 5),
        .obj [("start", .num (.val 0)), ("end", .num (.val 1)), ("text", .str "a")]])])
      [.num (.val 5),
        .obj [("start", .num (.val 0)), ("end", .num (.val 1)), ("text", .str "a")]]
      (by with_unfolding_all rfl) (by with_unfolding_all rfl) (by with_unfolding_all rfl)
      ⟨.num (.val 5), List.mem_cons_self .., rfl⟩
  have h2 : adSegsL (extractJSON
      "\x7b\"adSegments\":[5,\x7b\"start\":0,\"end\":1,\"text\":\"a\"\x7d]\x7d") =
      [JVal.obj [("start", .num (.val 0)), ("end", .num (.val 1)), ("text", .str "a")]] := by
    with_unfolding_all rfl
  rw [h1] at h2
  rw [show adSegsL emptyResult = [] from by with_unfolding_all rfl] at h2
  exact List.noConfusion h2

/-- C10 amended: a `null` element in the parsed `adSegments` array throws a
`TypeError` inside the filter, and only then does the whole input map to
`\x7b adSegments: [] \x7d`; any other non-object element is silently dropped
on its own while the remaining elements are processed normally. -/
theorem c10_null_vs_nonobj :
    (∀ l : List JVal, JVal.null ∈ l → filterSegs l = .error ()) ∧
    (∀ (s : String) (span : List Char) (parsed : JVal) (l : List JVal),
      jsonSpan (preclean s.data) = some span →
      parseJsonText (fixSpan span) = .ok parsed →
      jsGetField parsed "adSegments" = .arr l →
      JVal.null ∈ l →
      extractJSON s = emptyResult) ∧
    (∀ (e : JVal) (l : List JVal), e.isObjB = false → e ≠ .null → e ≠ .undef →
      filterSegs (e :: l) = filterSegs l) := by
  refine ⟨filterSegs_null_mem, ?_, filterSegs_cons_nonobj⟩
  intro s span parsed l h1 h2 h3 hmem
  rw [extractJSON_span_some s span h1, extractFromSpan_ok span parsed h2,
    extractFromParsed_arr parsed l h3, filterSegs_null_mem l hmem]

/-- Witness for C10 (amended): a `null` element empties the whole result;
a numeric element is dropped individually. -/
theorem c10_witness :
    JVal.null ∈ ([JVal.null] : List JVal) ∧
    jsonSpan (preclean "\x7b\"adSegments\":[null]\x7d".data) =
      some "\x7b\"adSegments\":[null]\x7d".data ∧
    parseJsonText (fixSpan "\x7b\"adSegments\":[null]\x7d".data) =
      .ok (JVal.obj [("adSegments", .arr [JVal.null])]) ∧
    jsGetField (JVal.obj [("adSegments", .arr [JVal.null])]) "adSegments" =
      .arr [JVal.null] ∧
    extractJSON "\x7b\"adSegments\":[null]\x7d" = emptyResult ∧
    (JVal.num (.val 5)).isObjB = false ∧
    filterSegs [JVal.num (.val 5)] = filterSegs [] := by
  refine ⟨List.mem_singleton.mpr rfl, by with_unfolding_all rfl, by with_unfolding_all rfl,
    by with_unfolding_all rfl, ?_, rfl, ?_⟩
  · exact c10_null_vs_nonobj.2.1 _ _ _ [JVal.null] (by with_unfolding_all rfl)
      (by with_unfolding_all rfl) (by with_unfolding_all rfl)
      (List.mem_singleton.mpr rfl)
  · exact c10_null_vs_nonobj.2.2 (JVal.num (.val 5)) [] rfl
      (by intro h; cases h) (by intro h; cases h)

/-! ### Claims C5 and C6 -/

/-- C5: within the extracted span the repairs run in source order — first
the `ms`-unit removal on `"start"`/`"end"` values (and on no other field:
`"foo"`/`"xend"` stay untouched), then the three entity substitutions in
exactly the order `&amp;#39;`, `&amp;quot;`, `&amp;` — and the span
`"start": 12.5ms, "end": 20ms` inside a JSON object parses to `start:12.5`,
`end:20`. -/
theorem c5_repairs_in_order :
    (∀ cs : List Char, fixSpan cs =
      replaceAllL "&amp;".data "&".data
        (replaceAllL "&amp;quot;".data [qMark]
          (replaceAllL "&amp;#39;".data "\x27".data (msFixAll cs)))) ∧
    adSegsL (extractJSON
      "\x7b\"adSegments\": [\x7b\"start\": 12.5ms, \"end\": 20ms, \"text\": \"a\"\x7d]\x7d") =
      [JVal.obj [("start", .num (.val (25/2))), ("end", .num (.val 20)), ("text", .str "a")]] ∧
    msFixAll "\"foo\": 5ms".data = "\"foo\": 5ms".data ∧
    msFixAll "\"xend\": 7ms".data = "\"xend\": 7ms".data ∧
    entFix "&amp;#39;".data = "\x27".data ∧
    entFix "&amp;quot;".data = [qMark] ∧
    entFix "&amp;".data = "&".data := by
  refine ⟨fun cs => rfl, by with_unfolding_all rfl, by with_unfolding_all rfl,
    by with_unfolding_all rfl, by with_unfolding_all rfl, by with_unfolding_all rfl,
    by with_unfolding_all rfl⟩

/-- C6: after trimming and stripping only anchored code fences, the span
from the first opening to the last closing brace is extracted; when no such
span exists the sanitizer recovers with `\x7b adSegments: [] \x7d`; fences
not anchored at the very start/end are never stripped. -/
theorem c6_span_selection :
    (∀ s : String, jsonSpan (preclean s.data) = none → extractJSON s = emptyResult) ∧
    (∀ cs : List Char, "```json".data.isPrefixOf cs = false → stripLeadJsonFence cs = cs) ∧
    (∀ cs : List Char, "```".data.isPrefixOf cs = false → stripLeadFence cs = cs) ∧
    (∀ cs : List Char, "```".data.isSuffixOf cs = false → stripTrailFence cs = cs) ∧
    preclean "```json\n\x7b\"a\":1\x7d\n```".data = "\x7b\"a\":1\x7d".data ∧
    extractJSON "no json here" = emptyResult ∧
    jsonSpan "ab\x7bc\x7bd\x7de\x7df".data = some "\x7bc\x7bd\x7de\x7d".data := by
  refine ⟨fun s h => extractJSON_span_none s h, ?_, ?_, ?_,
    by with_unfolding_all rfl, by with_unfolding_all rfl, by with_unfolding_all rfl⟩
  · intro cs h
    simp [stripLeadJsonFence, h]
  · intro cs h
    simp [stripLeadFence, h]
  · intro cs h
    simp [stripTrailFence, h]

/-- Witness for C6: a brace-free input recovers to the empty result, and
mid-text fences survive all three anchored strips. -/
theorem c6_witness :
    jsonSpan (preclean "no braces".data) = none ∧
    extractJSON "no braces" = emptyResult ∧
    ("```".data.isPrefixOf "x ``` y".data) = false ∧
    stripLeadFence "x ``` y".data = "x ``` y".data ∧
    ("```".data.isSuffixOf "a ``` b".data) = false ∧
    stripTrailFence "a ``` b".data = "a ``` b".data ∧
    ("```json".data.isPrefixOf "zz```json".data) = false ∧
    stripLeadJsonFence "zz```json".data = "zz```json".data := by
  refine ⟨by with_unfolding_all rfl, ?_, by with_unfolding_all rfl, ?_,
    by with_unfolding_all rfl, ?_, by with_unfolding_all rfl, ?_⟩
  · exact c6_span_selection.1 "no braces" (by with_unfolding_all rfl)
  · exact c6_span_selection.2.2.1 _ (by with_unfolding_all rfl)
  · exact c6_span_selection.2.2.2.1 _ (by with_unfolding_all rfl)
  · exact c6_span_selection.2.1 _ (by with_unfolding_all rfl)

/-! ### Claims C7, C8, C9 -/

/-- C7: the video-ID extractor returns the `v` query parameter of the
parsed URL; a URL-parse failure, an absent `v` parameter, or an empty-string
`v` value all produce the terminal 400 `Invalid YouTube URL` response, and
otherwise the handler proceeds with exactly the extracted ID. -/
theorem c7_video_id_extraction :
    (∀ (pf : String → Option (List (String × String))) (url : String),
      getVideoId pf url = (pf url).bind (fun ps => searchParamGet ps "v")) ∧
    (∀ (d : Deps) (url : String),
      getVideoId d.parseURL url = none ∨ getVideoId d.parseURL url = some "" →
      stage2Vid d url = resErr 400 invalidMsg) ∧
    (∀ (d : Deps) (url vid : String),
      getVideoId d.parseURL url = some vid → vid ≠ "" →
      stage2Vid d url = stage3Transcript d vid) := by
  refine ⟨?_, ?_, ?_⟩
  · intro pf url
    unfold getVideoId
    cases pf url <;> rfl
  · intro d url h
    rcases h with h | h
    · unfold stage2Vid
      rw [h]
    · unfold stage2Vid
      rw [h]
      simp
  · intro d url vid h hne
    unfold stage2Vid
    rw [h]
    simp [hne]

/-- Witness for C7 with a concrete URL-parser dependency. -/
theorem c7_witness :
    getVideoId (fun u => if u = "good" then some [("v", "abc123")] else none) "good" =
      some "abc123" ∧
    stage2Vid
      ⟨fun u => if u = "good" then some [("v", "abc123")] else none,
        fun _ => .threw, fun _ => .error ()⟩ "good" =
      stage3Transcript
        ⟨fun u => if u = "good" then some [("v", "abc123")] else none,
          fun _ => .threw, fun _ => .error ()⟩ "abc123" ∧
    stage2Vid
      ⟨fun _ => none, fun _ => .threw, fun _ => .error ()⟩ "bad url" =
      resErr 400 invalidMsg := by
  refine ⟨by with_unfolding_all rfl, ?_, ?_⟩
  · exact c7_video_id_extraction.2.2 _ "good" "abc123" (by with_unfolding_all rfl)
      (by decide)
  · exact c7_video_id_extraction.2.1 _ "bad url" (Or.inl (by with_unfolding_all rfl))

/-- C8 counterexample: the claim requires every body without a non-empty
`videoUrl` STRING to get the 400 `Video URL is required` response, but a
truthy non-string such as `videoUrl: 123` passes the falsiness check and
reaches video-ID extraction (here failing later with 400
`Invalid YouTube URL` instead). -/
theorem c8_counterexample :
    ¬ (∀ (d : Deps) (body : JVal),
        (∀ str : String, jsGetField body "videoUrl" = .str str → str = "") →
        handler d body = resErr 400 requiredMsg) := by
  intro h
  have h1 := h ⟨fun _ => none, fun _ => .threw, fun _ => .error ()⟩
      (JVal.obj [("videoUrl", .num (.val 123))])
      (by
        intro str hstr
        rw [show jsGetField (JVal.obj [("videoUrl", JVal.num (.val 123))]) "videoUrl" =
          .num (.val 123) from by with_unfolding_all rfl] at hstr
        cases hstr)
  have h2 : handler ⟨fun _ => none, fun _ => .threw, fun _ => .error ()⟩
      (JVal.obj [("videoUrl", .num (.val 123))]) = resErr 400 invalidMsg := by
    with_unfolding_all rfl
  rw [h1] at h2
  have h3 : jsGetField (resErr 400 requiredMsg).2 "error" =
      jsGetField (resErr 400 invalidMsg).2 "error" := by rw [h2]
  rw [show jsGetField (resErr 400 requiredMsg).2 "error" = .str requiredMsg from
      by with_unfolding_all rfl,
    show jsGetField (resErr 400 invalidMsg).2 "error" = .str invalidMsg from
      by with_unfolding_all rfl] at h3
  injection h3 with h4
  exact absurd h4 (by with_unfolding_all decide)

/-- C8 amended: for every non-null body, the handler reaches the video-ID
extraction step iff the `videoUrl` property is truthy — every non-empty
string, but also non-string truthy values such as nonzero numbers — and
otherwise terminates with 400 `Video URL is required` and the standard
error body. -/
theorem c8_validate_truthy :
    ∀ (d : Deps) (body : JVal), body ≠ .null → body ≠ .undef →
      (truthy (jsGetField body "videoUrl") = false →
        handler d body = resErr 400 requiredMsg) ∧
      (truthy (jsGetField body "videoUrl") = true →
        handler d body = stage2Vid d (jsToString (jsGetField body "videoUrl"))) := by
  intro d body h1 h2
  cases body with
  | null => exact absurd rfl h1
  | undef => exact absurd rfl h2
  | bool b => exact ⟨fun ht => by simp [handler, ht], fun ht => by simp [handler, ht]⟩
  | num n => exact ⟨fun ht => by simp [handler, ht], fun ht => by simp [handler, ht]⟩
  | str s => exact ⟨fun ht => by simp [handler, ht], fun ht => by simp [handler, ht]⟩
  | arr l => exact ⟨fun ht => by simp [handler, ht], fun ht => by simp [handler, ht]⟩
  | obj fs => exact ⟨fun ht => by simp [handler, ht], fun ht => by simp [handler, ht]⟩

/-- Witness for C8 (amended): a missing `videoUrl` is 400-required; a
truthy numeric `videoUrl` reaches extraction. -/
theorem c8_witness :
    handler ⟨fun _ => none, fun _ => .threw, fun _ => .error ()⟩ (JVal.obj []) =
      resErr 400 requiredMsg ∧
    handler ⟨fun _ => none, fun _ => .threw, fun _ => .error ()⟩
        (JVal.obj [("videoUrl", .num (.val 123))]) =
      stage2Vid ⟨fun _ => none, fun _ => .threw, fun _ => .error ()⟩
        (jsToString (jsGetField (JVal.obj [("videoUrl", .num (.val 123))]) "videoUrl")) := by
  constructor
  · exact (c8_validate_truthy _ (JVal.obj []) (by intro h; cases h) (by intro h; cases h)).1
      (by with_unfolding_all rfl)
  · exact (c8_validate_truthy _ _ (by intro h; cases h) (by intro h; cases h)).2
      (by with_unfolding_all rfl)

/-- C9: a thrown transcript fetch produces the terminal 404
captions-unavailable response; a null/undefined or empty fetch result
produces the terminal 404 no-transcript response; the two messages differ,
and both bodies have the `error`/`transcript: []`/`adSegments: []` shape. -/
theorem c9_transcript_404s :
    (∀ (d : Deps) (vid : String), d.fetchTranscript vid = .threw →
      stage3Transcript d vid = resErr 404 captionsMsg) ∧
    (∀ (d : Deps) (vid : String),
      d.fetchTranscript vid = .got none ∨ d.fetchTranscript vid = .got (some []) →
      stage3Transcript d vid = resErr 404 noTransMsg) ∧
    captionsMsg ≠ noTransMsg ∧
    (∀ (code : ℕ) (msg : String), (resErr code msg).2 =
      .obj [("error", .str msg), ("transcript", .arr []), ("adSegments", .arr [])]) := by
  refine ⟨?_, ?_, by with_unfolding_all decide, fun code msg => rfl⟩
  · intro d vid h
    unfold stage3Transcript
    rw [h]
  · intro d vid h
    rcases h with h | h
    · unfold stage3Transcript
      rw [h]
    · unfold stage3Transcript
      rw [h]
      rfl

/-- Witness for C9 with concrete transcript-provider dependencies. -/
theorem c9_witness :
    stage3Transcript ⟨fun _ => none, fun _ => .threw, fun _ => .error ()⟩ "vid1" =
      resErr 404 captionsMsg ∧
    stage3Transcript ⟨fun _ => none, fun _ => .got (some []), fun _ => .error ()⟩ "vid2" =
      resErr 404 noTransMsg ∧
    stage3Transcript ⟨fun _ => none, fun _ => .got none, fun _ => .error ()⟩ "vid3" =
      resErr 404 noTransMsg := by
  refine ⟨?_, ?_, ?_⟩
  · exact c9_transcript_404s.1 _ "vid1" rfl
  · exact c9_transcript_404s.2.1 _ "vid2" (Or.inr rfl)
  · exact c9_transcript_404s.2.1 _ "vid3" (Or.inl rfl)

/-! ### Claim C4 (counterexample) -/

/-- C4 counterexample: sanitizing is NOT idempotent.  A kept segment text
`&amp;amp;` becomes `&amp;` in the first pass (the global `&amp;` → `&`
replacement continues scanning after each replacement); serializing and
sanitizing again applies the same replacement once more, yielding `&`, a
different result. -/
theorem c4_counterexample :
    ¬ (∀ s : String, extractJSON (jsStringify (extractJSON s)) = extractJSON s) := by
  intro h
  have h1 := h "\x7b\"adSegments\":[\x7b\"start\":0,\"end\":1,\"text\":\"&amp;amp;\"\x7d]\x7d"
  have e1 : adSegsL (extractJSON
      "\x7b\"adSegments\":[\x7b\"start\":0,\"end\":1,\"text\":\"&amp;amp;\"\x7d]\x7d") =
      [.obj [("start", .num (.val 0)), ("end", .num (.val 1)), ("text", .str "&amp;")]] := by
    with_unfolding_all rfl
  have e2 : adSegsL (extractJSON (jsStringify (extractJSON
      "\x7b\"adSegments\":[\x7b\"start\":0,\"end\":1,\"text\":\"&amp;amp;\"\x7d]\x7d"))) =
      [.obj [("start", .num (.val 0)), ("end", .num (.val 1)), ("text", .str "&")]] := by
    with_unfolding_all rfl
  rw [h1, e1] at e2
  simp at e2

/-! ### Lemmas: digits and decimal notation -/

theorem digitV_digitChar (d : ℕ) (h : d < 10) : digitV (digitChar d) = d := by
  interval_cases d <;> rfl

theorem isDigitC_digitChar (d : ℕ) (h : d < 10) : isDigitC (digitChar d) = true := by
  interval_cases d <;> rfl

theorem digitChar_ne_zero (d : ℕ) (h1 : d < 10) (h2 : d ≠ 0) : digitChar d ≠ '0' := by
  interval_cases d <;> simp_all <;> decide

theorem hexValC_hexChar (d : ℕ) (h : d < 16) : hexValC (hexChar d) = some d := by
  interval_cases d <;> rfl

theorem natDigitsAux_val (fuel n : ℕ) (h : n ≤ fuel) :
    natVal (natDigitsAux fuel n) = n := by
  induction fuel generalizing n with
  | zero => interval_cases n; rfl
  | succ f ih =>
    cases n with
    | zero => rfl
    | succ m =>
      rw [natDigitsAux, natVal]
      simp only [List.foldr]
      rw [show (List.foldr (fun d a => d + 10 * a) 0 (natDigitsAux f ((m + 1) / 10))) =
        natVal (natDigitsAux f ((m + 1) / 10)) from rfl]
      rw [ih ((m + 1) / 10) (by omega)]
      omega

theorem natDigitsAux_lt (fuel n : ℕ) : ∀ d ∈ natDigitsAux fuel n, d < 10 := by
  induction fuel generalizing n with
  | zero => intro d hd; cases hd
  | succ f ih =>
    cases n with
    | zero => intro d hd; cases hd
    | succ m =>
      intro d hd
      rw [natDigitsAux] at hd
      rcases List.mem_cons.mp hd with rfl | hd2
      · exact Nat.mod_lt _ (by norm_num)
      · exact ih _ d hd2

theorem natDigitsAux_getLast? (fuel n : ℕ) (h1 : 1 ≤ n) (h2 : n ≤ fuel) :
    ∀ m, (natDigitsAux fuel n).getLast? = some m → m ≠ 0 := by
  induction fuel generalizing n with
  | zero => omega
  | succ f ih =>
    intro m hm
    cases n with
    | zero => omega
    | succ k =>
      rw [natDigitsAux] at hm
      by_cases hq : (k + 1) / 10 = 0
      · have : natDigitsAux f ((k + 1) / 10) = [] := by
          rw [hq]
          cases f <;> rfl
        rw [this] at hm
        simp at hm
        omega
      · have hne : natDigitsAux f ((k + 1) / 10) ≠ [] := by
          intro hemp
          have := natDigitsAux_val f ((k + 1) / 10) (by omega)
          rw [hemp] at this
          simp [natVal] at this
          omega
        obtain ⟨c, r, hcr⟩ := List.exists_cons_of_ne_nil hne
        rw [hcr, List.getLast?_cons_cons] at hm
        exact ih ((k + 1) / 10) (by omega) (by omega) m (by rw [hcr]; exact hm)

theorem printNat_all_digits (n : ℕ) : ∀ c ∈ printNat n, isDigitC c = true := by
  intro c hc
  rw [printNat] at hc
  by_cases h : n = 0
  · rw [if_pos h] at hc
    simp at hc
    subst hc
    rfl
  · rw [if_neg h] at hc
    simp only [List.mem_map, List.mem_reverse] at hc
    obtain ⟨d, hd, rfl⟩ := hc
    exact isDigitC_digitChar d (natDigitsAux_lt n n d hd)

theorem printNat_ne_nil (n : ℕ) : printNat n ≠ [] := by
  rw [printNat]
  by_cases h : n = 0
  · rw [if_pos h]; simp
  · rw [if_neg h]
    simp only [ne_eq, List.map_eq_nil_iff, List.reverse_eq_nil_iff]
    intro hemp
    have := natDigitsAux_val n n (le_refl n)
    rw [hemp] at this
    simp [natVal] at this
    omega

theorem digitsToNat_append (xs ys : List Char) :
    digitsToNat (xs ++ ys) = ys.foldl (fun a c => a * 10 + digitV c) (digitsToNat xs) := by
  rw [digitsToNat, List.foldl_append]
  rfl

theorem digitsToNat_printNat (n : ℕ) : digitsToNat (printNat n) = n := by
  rw [printNat]
  by_cases h : n = 0
  · rw [if_pos h, h]; rfl
  · rw [if_neg h]
    have hval := natDigitsAux_val n n (le_refl n)
    have hlt := natDigitsAux_lt n n
    generalize hds : natDigitsAux n n = ds at hval hlt
    clear hds h
    induction ds generalizing n with
    | nil => simp [natVal] at hval; rw [digitsToNat]; simp [hval]
    | cons d r ih =>
      rw [natVal] at hval
      simp only [List.foldr] at hval
      rw [List.reverse_cons, List.map_append, digitsToNat_append]
      simp only [List.map_cons, List.map_nil, List.foldl_cons, List.foldl_nil]
      rw [ih (natVal r) (by rfl) (fun d2 hd2 => hlt d2 (by simp [hd2]))]
      rw [digitV_digitChar d (hlt d (by simp))]
      rw [show natVal r = List.foldr (fun d a => d + 10 * a) 0 r from rfl]
      omega

theorem printNat_head_ne_zero (n : ℕ) (h : n ≠ 0) :
    ∀ c cs2, printNat n = c :: cs2 → c ≠ '0' := by
  intro c cs2 hc
  rw [printNat, if_neg h] at hc
  cases hrev : (natDigitsAux n n).reverse with
  | nil => rw [hrev] at hc; cases hc
  | cons d r2 =>
    rw [hrev] at hc
    simp only [List.map_cons, List.cons.injEq] at hc
    obtain ⟨hc1, _⟩ := hc
    have hd10 : d < 10 := by
      refine natDigitsAux_lt n n d ?_
      have : d ∈ (natDigitsAux n n).reverse := by rw [hrev]; simp
      simpa using this
    have hdne : d ≠ 0 := by
      have hlast : (natDigitsAux n n).getLast? = some d := by
        rw [← List.head?_reverse, hrev]
        rfl
      exact natDigitsAux_getLast? n n (by omega) (le_refl n) d hlast
    rw [← hc1]
    exact digitChar_ne_zero d hd10 hdne

theorem takeWhile_append_sat (xs ys : List Char) (p : Char → Bool)
    (h : ∀ c ∈ xs, p c = true)
    (h2 : ys = [] ∨ ∃ c r, ys = c :: r ∧ p c = false) :
    (xs ++ ys).takeWhile p = xs := by
  induction xs with
  | nil =>
    rcases h2 with rfl | ⟨c, r, rfl, h4⟩
    · rfl
    · simp [List.takeWhile_cons, h4]
  | cons x r ih =>
    have hx := h x (by simp)
    simp [List.takeWhile_cons, hx]
    exact ih (fun c hc => h c (by simp [hc]))

theorem natDiv_bounds (N D : ℕ) (hD : 0 < D) :
    ((N / D : ℕ) : ℚ) ≤ (N : ℚ) / (D : ℚ) ∧
      (N : ℚ) / (D : ℚ) < ((N / D : ℕ) : ℚ) + 1 := by
  have hDq : (0 : ℚ) < (D : ℚ) := by exact_mod_cast hD
  constructor
  · rw [le_div_iff₀ hDq]
    exact_mod_cast Nat.div_mul_le_self N D
  · rw [div_lt_iff₀ hDq]
    have h3 := Nat.div_add_mod N D
    have h4 := Nat.mod_lt N hD
    have h5 : N < (N / D + 1) * D := by
      calc N = D * (N / D) + N % D := h3.symm
        _ < D * (N / D) + D := by omega
        _ = (N / D + 1) * D := by ring
    calc (N : ℚ) < (((N / D + 1) * D : ℕ) : ℚ) := by exact_mod_cast h5
      _ = (((N / D : ℕ) : ℚ) + 1) * (D : ℚ) := by push_cast; ring

theorem qfloorN_bounds (q : ℚ) (h : 0 ≤ q) :
    (qfloorN q : ℚ) ≤ q ∧ q < qfloorN q + 1 := by
  have hnum : ((q.num.toNat : ℕ) : ℚ) = ((q.num : ℤ) : ℚ) := by
    exact_mod_cast Int.toNat_of_nonneg (Rat.num_nonneg.mpr h)
  have hqeq : ((q.num.toNat : ℕ) : ℚ) / ((q.den : ℕ) : ℚ) = q := by
    rw [hnum]
    exact Rat.num_div_den q
  obtain ⟨k1, k2⟩ := natDiv_bounds q.num.toNat q.den q.den_pos
  rw [hqeq] at k1 k2
  exact ⟨k1, k2⟩

theorem qfloorN_eq (q : ℚ) (a : ℕ) (h0 : 0 ≤ q) (h1 : (a : ℚ) ≤ q)
    (h2 : q < a + 1) : qfloorN q = a := by
  obtain ⟨b1, b2⟩ := qfloorN_bounds q h0
  have c1 : (a : ℚ) < (qfloorN q : ℚ) + 1 := lt_of_le_of_lt h1 b2
  have c2 : (qfloorN q : ℚ) < (a : ℚ) + 1 := lt_of_le_of_lt b1 h2
  have d1 : a < qfloorN q + 1 := by exact_mod_cast c1
  have d2 : qfloorN q < a + 1 := by exact_mod_cast c2
  omega

theorem msdValN_foldl (ds : List ℕ) (a : ℕ) :
    ds.foldl (fun a d => a * 10 + d) a = a * 10 ^ ds.length + msdValN ds := by
  induction ds generalizing a with
  | nil => simp [msdValN]
  | cons d r ih =>
    simp only [List.foldl_cons, List.length_cons]
    rw [ih (a * 10 + d)]
    rw [show msdValN (d :: r) = (List.foldl (fun a d => a * 10 + d) (0 * 10 + d) r) from rfl]
    rw [ih (0 * 10 + d)]
    ring

theorem msdValN_cons (d : ℕ) (ds : List ℕ) :
    msdValN (d :: ds) = d * 10 ^ ds.length + msdValN ds := by
  rw [show msdValN (d :: ds) = (List.foldl (fun a d => a * 10 + d) (0 * 10 + d) ds) from rfl]
  rw [msdValN_foldl]
  ring

theorem fracDigitsQ_spec : ∀ (k m : ℕ), m < 10 ^ k →
    (∀ d ∈ fracDigitsQ k ((m : ℚ) / 10 ^ k), d < 10) ∧
    ∃ j : ℕ, (fracDigitsQ k ((m : ℚ) / 10 ^ k)).length + j = k ∧
      msdValN (fracDigitsQ k ((m : ℚ) / 10 ^ k)) * 10 ^ j = m := by
  intro k
  induction k with
  | zero =>
    intro m hm
    interval_cases m
    refine ⟨?_, 0, ?_, ?_⟩
    · intro d hd; cases hd
    · simp
      rfl
    · simp
      rfl
  | succ k ih =>
    intro m hm
    by_cases hm0 : m = 0
    · subst hm0
      have hz : fracDigitsQ (k + 1) (((0 : ℕ) : ℚ) / 10 ^ (k + 1)) = [] := by
        rw [fracDigitsQ]
        simp
      rw [hz]
      refine ⟨?_, k + 1, ?_, ?_⟩
      · intro d hd; cases hd
      · simp
      · simp [msdValN]
    · have hpow : ((10 : ℚ) ^ k) ≠ 0 := by positivity
      have hpow1 : ((10 : ℚ) ^ (k + 1)) ≠ 0 := by positivity
      have hfne : ((m : ℚ) / 10 ^ (k + 1)) ≠ 0 := by
        apply div_ne_zero
        · exact_mod_cast hm0
        · exact hpow1
      have h10 : ((m : ℚ) / 10 ^ (k + 1)) * 10 = (m : ℚ) / 10 ^ k := by
        field_simp
        ring
      have hkpos : 0 < 10 ^ k := Nat.pos_pow_of_pos k (by norm_num)
      have hcast : (((10 ^ k : ℕ)) : ℚ) = (10 : ℚ) ^ k := by push_cast; rfl
      obtain ⟨nb1, nb2⟩ := natDiv_bounds m (10 ^ k) hkpos
      rw [hcast] at nb1 nb2
      have hd : qfloorN (((m : ℚ) / 10 ^ (k + 1)) * 10) = m / 10 ^ k := by
        rw [h10]
        exact qfloorN_eq _ _ (by positivity) nb1 nb2
      have hdm := Nat.div_add_mod m (10 ^ k)
      have hrem : ((m : ℚ) / 10 ^ (k + 1)) * 10 - ((m / 10 ^ k : ℕ) : ℚ) =
          ((m % 10 ^ k : ℕ) : ℚ) / 10 ^ k := by
        rw [h10]
        have h3 : (m : ℚ) = ((10 ^ k : ℕ) : ℚ) * ((m / 10 ^ k : ℕ) : ℚ) +
            ((m % 10 ^ k : ℕ) : ℚ) := by exact_mod_cast hdm.symm
        rw [hcast] at h3
        field_simp
        linarith [h3]
      have heq : fracDigitsQ (k + 1) ((m : ℚ) / 10 ^ (k + 1)) =
          (m / 10 ^ k) :: fracDigitsQ k (((m % 10 ^ k : ℕ) : ℚ) / 10 ^ k) := by
        rw [fracDigitsQ, if_neg hfne, hd, hrem]
      have hmod : m % 10 ^ k < 10 ^ k := Nat.mod_lt m hkpos
      obtain ⟨ihmem, j, hj, hval⟩ := ih (m % 10 ^ k) hmod
      have hdlt : m / 10 ^ k < 10 := by
        rw [Nat.div_lt_iff_lt_mul hkpos]
        calc m < 10 ^ (k + 1) := hm
          _ = 10 * 10 ^ k := by ring
      refine ⟨?_, j, ?_, ?_⟩
      · intro d hd2
        rw [heq] at hd2
        rcases List.mem_cons.mp hd2 with rfl | hd3
        · exact hdlt
        · exact ihmem d hd3
      · rw [heq]
        simp only [List.length_cons]
        omega
      · rw [heq, msdValN_cons, add_mul, mul_assoc, ← pow_add]
        have hlenj : (fracDigitsQ k (((m % 10 ^ k : ℕ) : ℚ) / 10 ^ k)).length + j = k := hj
        rw [hlenj, hval]
        calc m / 10 ^ k * 10 ^ k + m % 10 ^ k
            = 10 ^ k * (m / 10 ^ k) + m % 10 ^ k := by ring
          _ = m := hdm

/-! ### Lemmas: number printing round trip -/

theorem printableQ_dvd (q : ℚ) (hp : printableQ q = true) : q.den ∣ 10 ^ printFuel := by
  rw [printableQ] at hp
  simp only [beq_iff_eq] at hp
  exact Nat.dvd_of_mod_eq_zero hp

theorem printableQ_neg (q : ℚ) (hp : printableQ q = true) : printableQ (-q) = true := by
  rw [printableQ] at hp ⊢
  rw [Rat.neg_den]
  exact hp

theorem printable_rep (q : ℚ) (hp : printableQ q = true) (h0 : 0 ≤ q) :
    ∃ M : ℕ, q = (M : ℚ) / 10 ^ printFuel := by
  have hdvd := printableQ_dvd q hp
  have hden := Nat.div_mul_cancel hdvd
  have hFpos : 0 < 10 ^ printFuel := Nat.pos_pow_of_pos _ (by norm_num)
  refine ⟨q.num.toNat * (10 ^ printFuel / q.den), ?_⟩
  have hXpos : 0 < 10 ^ printFuel / q.den := by
    rcases Nat.eq_zero_or_pos (10 ^ printFuel / q.den) with hz | hpos
    · rw [hz] at hden
      omega
    · exact hpos
  have hXq : ((10 ^ printFuel / q.den : ℕ) : ℚ) ≠ 0 := by
    exact_mod_cast hXpos.ne.symm
  have hnum : ((q.num.toNat : ℕ) : ℚ) = ((q.num : ℤ) : ℚ) := by
    exact_mod_cast Int.toNat_of_nonneg (Rat.num_nonneg.mpr h0)
  have hpowcast : ((10 : ℚ) ^ printFuel) =
      ((10 ^ printFuel / q.den : ℕ) : ℚ) * ((q.den : ℕ) : ℚ) := by
    rw [show ((10 ^ printFuel / q.den : ℕ) : ℚ) * ((q.den : ℕ) : ℚ) =
      (((10 ^ printFuel / q.den) * q.den : ℕ) : ℚ) from by push_cast; ring]
    rw [hden, Nat.cast_pow]
    norm_num
  rw [show ((q.num.toNat * (10 ^ printFuel / q.den) : ℕ) : ℚ) =
    ((q.num.toNat : ℕ) : ℚ) * ((10 ^ printFuel / q.den : ℕ) : ℚ) from by push_cast; ring]
  rw [hnum, hpowcast]
  rw [mul_comm ((10 ^ printFuel / q.den : ℕ) : ℚ) ((q.den : ℕ) : ℚ)]
  rw [show ((q.num : ℤ) : ℚ) * ((10 ^ printFuel / q.den : ℕ) : ℚ) /
      (((q.den : ℕ) : ℚ) * ((10 ^ printFuel / q.den : ℕ) : ℚ)) =
    ((q.num : ℤ) : ℚ) / ((q.den : ℕ) : ℚ) from
    mul_div_mul_right _ _ hXq]
  exact (Rat.num_div_den q).symm

theorem rep_parts (n : ℚ) (M : ℕ) (hM : n = (M : ℚ) / 10 ^ printFuel) :
    qfloorN n = M / 10 ^ printFuel ∧
    n - (qfloorN n : ℚ) = ((M % 10 ^ printFuel : ℕ) : ℚ) / 10 ^ printFuel := by
  have hFpos : 0 < 10 ^ printFuel := Nat.pos_pow_of_pos _ (by norm_num)
  have hQpos : (0 : ℚ) < (10 : ℚ) ^ printFuel := pow_pos (by norm_num) _
  have hcast : (((10 ^ printFuel : ℕ)) : ℚ) = (10 : ℚ) ^ printFuel := by
    rw [Nat.cast_pow]
    norm_num
  obtain ⟨b1, b2⟩ := natDiv_bounds M (10 ^ printFuel) hFpos
  rw [hcast, ← hM] at b1 b2
  have h0 : 0 ≤ n := by
    rw [hM]
    exact div_nonneg (Nat.cast_nonneg M) hQpos.le
  have hip : qfloorN n = M / 10 ^ printFuel := qfloorN_eq n _ h0 b1 b2
  refine ⟨hip, ?_⟩
  rw [hip, hM]
  have hdm := Nat.div_add_mod M (10 ^ printFuel)
  have h3 : (M : ℚ) = ((10 ^ printFuel : ℕ) : ℚ) * ((M / 10 ^ printFuel : ℕ) : ℚ) +
      ((M % 10 ^ printFuel : ℕ) : ℚ) := by exact_mod_cast hdm.symm
  rw [hcast] at h3
  rw [eq_div_iff hQpos.ne.symm, sub_mul, div_mul_cancel₀ _ hQpos.ne.symm]
  linarith [h3]

theorem digitsToNat_map_foldl (ds : List ℕ) (a : ℕ) (h : ∀ d ∈ ds, d < 10) :
    (ds.map digitChar).foldl (fun a c => a * 10 + digitV c) a =
      ds.foldl (fun a d => a * 10 + d) a := by
  induction ds generalizing a with
  | nil => rfl
  | cons d r ih =>
    simp only [List.map_cons, List.foldl_cons]
    rw [digitV_digitChar d (h d (by simp))]
    exact ih _ (fun d2 hd2 => h d2 (by simp [hd2]))

theorem digitsToNat_map_digitChar (ds : List ℕ) (h : ∀ d ∈ ds, d < 10) :
    digitsToNat (ds.map digitChar) = msdValN ds :=
  digitsToNat_map_foldl ds 0 h

theorem sepOK_cases (rest : List Char) (hsep : SepOK rest) :
    rest = [] ∨ ∃ r, rest = ',' :: r ∨ rest = ']' :: r ∨ rest = cbrace :: r := by
  cases rest with
  | nil => exact Or.inl rfl
  | cons c r =>
    rcases hsep with h | h | h
    · exact Or.inr ⟨r, Or.inl (by rw [h])⟩
    · exact Or.inr ⟨r, Or.inr (Or.inl (by rw [h]))⟩
    · exact Or.inr ⟨r, Or.inr (Or.inr (by rw [h]))⟩

theorem sepOK_not_digit (rest : List Char) (hsep : SepOK rest) :
    rest = [] ∨ ∃ c r, rest = c :: r ∧ isDigitC c = false := by
  rcases sepOK_cases rest hsep with rfl | ⟨r, rfl | rfl | rfl⟩
  · exact Or.inl rfl
  · exact Or.inr ⟨',', r, rfl, rfl⟩
  · exact Or.inr ⟨']', r, rfl, rfl⟩
  · exact Or.inr ⟨cbrace, r, rfl, rfl⟩

theorem parseExpPart_sep (rest : List Char) (hsep : SepOK rest) :
    parseExpPart rest = .ok (0, rest) := by
  rcases sepOK_cases rest hsep with rfl | ⟨r, rfl | rfl | rfl⟩ <;> rfl

theorem parseIntPart_print (n : ℕ) (tail : List Char)
    (htail : tail = [] ∨ ∃ c r, tail = c :: r ∧ isDigitC c = false) :
    parseIntPart (printNat n ++ tail) = (n, tail) := by
  by_cases h0 : n = 0
  · subst h0
    rw [show printNat 0 = ['0'] from rfl]
    rfl
  · obtain ⟨c, cs2, hpn⟩ := List.exists_cons_of_ne_nil (printNat_ne_nil n)
    have hcne : c ≠ '0' := printNat_head_ne_zero n h0 c cs2 hpn
    have htake : (printNat n ++ tail).takeWhile isDigitC = printNat n :=
      takeWhile_append_sat _ _ _ (printNat_all_digits n) htail
    have hdrop : (printNat n ++ tail).drop (printNat n).length = tail :=
      List.drop_left _ _
    rw [hpn]
    rw [show (c :: cs2) ++ tail = c :: (cs2 ++ tail) from rfl]
    rw [parseIntPart]
    rw [if_neg hcne]
    rw [show c :: (cs2 ++ tail) = (c :: cs2) ++ tail from rfl, ← hpn, htake, hdrop,
      digitsToNat_printNat]

theorem fracPartChars_tail_nondigit (n : ℚ) (rest : List Char) (hsep : SepOK rest) :
    fracPartChars n ++ rest = [] ∨
      ∃ c r, fracPartChars n ++ rest = c :: r ∧ isDigitC c = false := by
  rw [fracPartChars]
  by_cases he : (fracDigitsQ printFuel (n - (qfloorN n : ℚ))).isEmpty
  · rw [if_pos he]
    simpa using sepOK_not_digit rest hsep
  · rw [if_neg he]
    exact Or.inr ⟨'.', _, rfl, rfl⟩

theorem parseFracPart_print (n : ℚ) (M : ℕ) (hM : n = (M : ℚ) / 10 ^ printFuel)
    (rest : List Char) (hsep : SepOK rest) :
    parseFracPart (fracPartChars n ++ rest) = .ok (n - (qfloorN n : ℚ), rest) := by
  have hFpos : 0 < 10 ^ printFuel := Nat.pos_pow_of_pos _ (by norm_num)
  obtain ⟨hip, hfr⟩ := rep_parts n M hM
  have hmod : M % 10 ^ printFuel < 10 ^ printFuel := Nat.mod_lt M hFpos
  obtain ⟨hmem, j, hlen, hval⟩ := fracDigitsQ_spec printFuel (M % 10 ^ printFuel) hmod
  rw [← hfr] at hmem hlen hval
  rw [fracPartChars]
  by_cases he : (fracDigitsQ printFuel (n - (qfloorN n : ℚ))).isEmpty
  · rw [if_pos he]
    have hnil : fracDigitsQ printFuel (n - (qfloorN n : ℚ)) = [] :=
      List.isEmpty_iff.mp he
    have hfr0 : n - (qfloorN n : ℚ) = 0 := by
      rw [hnil] at hval
      have : M % 10 ^ printFuel = 0 := by
        rw [← hval]
        simp [msdValN]
      rw [hfr, this]
      simp
    rw [hfr0, List.nil_append]
    rcases sepOK_cases rest hsep with rfl | ⟨r, rfl | rfl | rfl⟩ <;> rfl
  · rw [if_neg he]
    have hne : fracDigitsQ printFuel (n - (qfloorN n : ℚ)) ≠ [] := by
      intro hemp
      rw [hemp] at he
      exact he rfl
    set fd := fracDigitsQ printFuel (n - (qfloorN n : ℚ)) with hfd
    have halldig : ∀ c ∈ fd.map digitChar, isDigitC c = true := by
      intro c hc
      obtain ⟨d, hd, rfl⟩ := List.mem_map.mp hc
      exact isDigitC_digitChar d (hmem d hd)
    have htake : (fd.map digitChar ++ rest).takeWhile isDigitC = fd.map digitChar :=
      takeWhile_append_sat _ _ _ halldig (sepOK_not_digit rest hsep)
    have hdrop : (fd.map digitChar ++ rest).drop (fd.map digitChar).length = rest :=
      List.drop_left _ _
    rw [show ('.' :: fd.map digitChar) ++ rest = '.' :: (fd.map digitChar ++ rest) from rfl]
    rw [parseFracPart]
    rw [htake, hdrop]
    have hfs_ne : (fd.map digitChar).isEmpty = false := by
      cases hfd2 : fd with
      | nil => exact absurd hfd2 hne
      | cons d r => rfl
    rw [hfs_ne]
    simp only [Bool.false_eq_true, if_false]
    congr 1
    congr 1
    rw [fracOf, digitsToNat_map_digitChar fd hmem, List.length_map]
    rw [hfr]
    have hQpos : (0 : ℚ) < (10 : ℚ) ^ printFuel := pow_pos (by norm_num) _
    have hQlen : (0 : ℚ) < (10 : ℚ) ^ fd.length := pow_pos (by norm_num) _
    rw [div_eq_div_iff hQlen.ne.symm hQpos.ne.symm]
    rw [show (10 : ℚ) ^ printFuel = (10 : ℚ) ^ fd.length * (10 : ℚ) ^ j from by
      rw [← pow_add, hlen]]
    have hval2 : (msdValN fd * 10 ^ j : ℕ) = M % 10 ^ printFuel := hval
    have hcast : ((msdValN fd * 10 ^ j : ℕ) : ℚ) = ((M % 10 ^ printFuel : ℕ) : ℚ) := by
      exact_mod_cast hval2
    push_cast at hcast
    calc (msdValN fd : ℚ) * ((10 : ℚ) ^ fd.length * (10 : ℚ) ^ j) =
        ((msdValN fd : ℚ) * (10 : ℚ) ^ j) * (10 : ℚ) ^ fd.length := by ring
      _ = ((M % 10 ^ printFuel : ℕ) : ℚ) * (10 : ℚ) ^ fd.length := by rw [hcast]

theorem parseJNumMag_print (n : ℚ) (M : ℕ) (hM : n = (M : ℚ) / 10 ^ printFuel)
    (rest : List Char) (hsep : SepOK rest) :
    parseJNumMag (printNat (qfloorN n) ++ (fracPartChars n ++ rest)) = .ok (n, rest) := by
  obtain ⟨c, cs2, hpn⟩ := List.exists_cons_of_ne_nil (printNat_ne_nil (qfloorN n))
  have hc : isDigitC c = true := printNat_all_digits _ c (by rw [hpn]; simp)
  rw [hpn]
  rw [show (c :: cs2) ++ (fracPartChars n ++ rest) =
    c :: (cs2 ++ (fracPartChars n ++ rest)) from rfl]
  rw [parseJNumMag, hc, if_pos rfl]
  rw [show c :: (cs2 ++ (fracPartChars n ++ rest)) =
    printNat (qfloorN n) ++ (fracPartChars n ++ rest) from by rw [hpn]; rfl]
  rw [parseIntPart_print (qfloorN n) _ (fracPartChars_tail_nondigit n rest hsep)]
  dsimp only
  rw [parseFracPart_print n M hM rest hsep]
  dsimp only
  rw [parseExpPart_sep rest hsep]
  dsimp only
  rw [zpow_zero, mul_one]
  rw [add_sub_cancel]

theorem parseJNumber_printNum (q : ℚ) (hp : printableQ q = true)
    (rest : List Char) (hsep : SepOK rest) :
    parseJNumber (printNum q ++ rest) = .ok (q, rest) := by
  cases hneg : Rat.blt q 0 with
  | false =>
    have h0 : 0 ≤ q := by
      by_contra hlt
      rw [not_le] at hlt
      have hb : Rat.blt q 0 = true := hlt
      rw [hb] at hneg
      cases hneg
    obtain ⟨M, hM⟩ := printable_rep q hp h0
    have hprint : printNum q = printNat (qfloorN q) ++ fracPartChars q := by
      rw [printNum, hneg]
      simp
    rw [hprint, List.append_assoc]
    obtain ⟨c, cs2, hpn⟩ := List.exists_cons_of_ne_nil (printNat_ne_nil (qfloorN q))
    have hc : isDigitC c = true := printNat_all_digits _ c (by rw [hpn]; simp)
    have hcm : c ≠ '-' := by
      intro h
      subst h
      exact absurd hc (by decide)
    rw [hpn]
    rw [show (c :: cs2) ++ (fracPartChars q ++ rest) =
      c :: (cs2 ++ (fracPartChars q ++ rest)) from rfl]
    rw [parseJNumber, if_neg hcm]
    rw [show c :: (cs2 ++ (fracPartChars q ++ rest)) =
      printNat (qfloorN q) ++ (fracPartChars q ++ rest) from by rw [hpn]; rfl]
    exact parseJNumMag_print q M hM rest hsep
  | true =>
    have hq : q < 0 := hneg
    have h0 : 0 ≤ -q := by linarith
    obtain ⟨M, hM⟩ := printable_rep (-q) (printableQ_neg q hp) h0
    have hprint : printNum q =
        '-' :: (printNat (qfloorN (-q)) ++ fracPartChars (-q)) := by
      rw [printNum, hneg]
      simp
    rw [hprint]
    rw [show ('-' :: (printNat (qfloorN (-q)) ++ fracPartChars (-q))) ++ rest =
      '-' :: ((printNat (qfloorN (-q)) ++ fracPartChars (-q)) ++ rest) from rfl]
    rw [parseJNumber, if_pos rfl, List.append_assoc]
    rw [parseJNumMag_print (-q) M hM rest hsep]
    dsimp only
    rw [neg_neg]

/-! ### Lemmas: string escaping round trip -/

theorem parseStrBody_unfold (fuel : ℕ) (c : Char) (rest : List Char) :
    parseStrBody (fuel + 1) (c :: rest) =
    (if c = qMark then .ok ([], rest)
    else if c = bSlash then
      match rest with
      | [] => .error ()
      | e :: r2 =>
        match escCharOf e with
        | some ch =>
          match parseStrBody fuel r2 with
          | .ok (s, r) => .ok (ch :: s, r)
          | .error u => .error u
        | none =>
          if e = 'u' then
            match r2 with
            | h1 :: h2 :: h3 :: h4 :: r3 =>
              match hexValC h1, hexValC h2, hexValC h3, hexValC h4 with
              | some a, some b, some c2, some d =>
                match parseStrBody fuel r3 with
                | .ok (s, r) =>
                  .ok (Char.ofNat (((a * 16 + b) * 16 + c2) * 16 + d) :: s, r)
                | .error u => .error u
              | _, _, _, _ => .error ()
            | _ => .error ()
          else .error ()
    else if c.toNat < 32 then .error ()
    else
      match parseStrBody fuel rest with
      | .ok (s, r) => .ok (c :: s, r)
      | .error u => .error u) := rfl

theorem parseStrBody_cons_plain (f : ℕ) (c : Char) (tl : List Char)
    (h1 : ¬ c = qMark) (h2 : ¬ c = bSlash) (h3 : ¬ c.toNat < 32) :
    parseStrBody (f + 1) (c :: tl) =
      match parseStrBody f tl with
      | .ok (s, r) => .ok (c :: s, r)
      | .error u => .error u := by
  rw [parseStrBody_unfold]
  rw [if_neg h1, if_neg h2, if_neg h3]

theorem parseStrBody_cons_esc (f : ℕ) (e ch : Char) (tl : List Char)
    (hesc : escCharOf e = some ch) :
    parseStrBody (f + 1) (bSlash :: e :: tl) =
      match parseStrBody f tl with
      | .ok (s, r) => .ok (ch :: s, r)
      | .error u => .error u := by
  rw [parseStrBody_unfold]
  rw [if_neg (by decide), if_pos rfl]
  dsimp only
  rw [hesc]

theorem parseStrBody_cons_hex (f : ℕ) (h1 h2 h3 h4 : Char) (a b c2 d : ℕ)
    (tl : List Char) (hv1 : hexValC h1 = some a) (hv2 : hexValC h2 = some b)
    (hv3 : hexValC h3 = some c2) (hv4 : hexValC h4 = some d)
    (hu1 : escCharOf 'u' = none) :
    parseStrBody (f + 1) (bSlash :: 'u' :: h1 :: h2 :: h3 :: h4 :: tl) =
      match parseStrBody f tl with
      | .ok (s, r) => .ok (Char.ofNat (((a * 16 + b) * 16 + c2) * 16 + d) :: s, r)
      | .error u => .error u := by
  rw [parseStrBody_unfold]
  rw [if_neg (by decide), if_pos rfl]
  try dsimp only
  rw [hu1]
  try dsimp only
  rw [if_pos rfl]
  try dsimp only
  rw [hv1, hv2, hv3, hv4]

theorem parseStrBody_escape (l : List Char) : ∀ (fuel : ℕ) (rest : List Char),
    l.length + 1 ≤ fuel →
    parseStrBody fuel ((l.map escChar).flatten ++ qMark :: rest) = .ok (l, rest) := by
  induction l with
  | nil =>
    intro fuel rest hf
    cases fuel with
    | zero => omega
    | succ f =>
      simp only [List.map_nil, List.flatten_nil, List.nil_append]
      rw [parseStrBody_unfold, if_pos rfl]
  | cons c r ih =>
    intro fuel rest hf
    cases fuel with
    | zero => simp at hf
    | succ f =>
      have hf2 : r.length + 1 ≤ f := by
        simp only [List.length_cons] at hf
        omega
      have htl := ih f rest hf2
      simp only [List.map_cons, List.flatten_cons, List.append_assoc]
      by_cases hq : c = qMark
      · subst hq
        rw [show escChar qMark = [bSlash, qMark] from rfl]
        rw [show ([bSlash, qMark] : List Char) ++
          ((r.map escChar).flatten ++ qMark :: rest) =
          bSlash :: qMark :: ((r.map escChar).flatten ++ qMark :: rest) from rfl]
        rw [parseStrBody_cons_esc f qMark qMark _ rfl, htl]
      · by_cases hb : c = bSlash
        · subst hb
          rw [show escChar bSlash = [bSlash, bSlash] from rfl]
          rw [show ([bSlash, bSlash] : List Char) ++
            ((r.map escChar).flatten ++ qMark :: rest) =
            bSlash :: bSlash :: ((r.map escChar).flatten ++ qMark :: rest) from rfl]
          rw [parseStrBody_cons_esc f bSlash bSlash _ rfl, htl]
        · by_cases h8 : c.toNat = 8
          · have hesc : escChar c = [bSlash, 'b'] := by
              rw [escChar, if_neg hq, if_neg hb, if_pos h8]
            rw [hesc]
            rw [show ([bSlash, 'b'] : List Char) ++
              ((r.map escChar).flatten ++ qMark :: rest) =
              bSlash :: 'b' :: ((r.map escChar).flatten ++ qMark :: rest) from rfl]
            rw [parseStrBody_cons_esc f 'b' (Char.ofNat 8) _ rfl, htl]
            rw [← h8, Char.ofNat_toNat]
          · by_cases h9 : c.toNat = 9
            · have hesc : escChar c = [bSlash, 't'] := by
                rw [escChar, if_neg hq, if_neg hb, if_neg h8, if_pos h9]
              rw [hesc]
              rw [show ([bSlash, 't'] : List Char) ++
                ((r.map escChar).flatten ++ qMark :: rest) =
                bSlash :: 't' :: ((r.map escChar).flatten ++ qMark :: rest) from rfl]
              rw [parseStrBody_cons_esc f 't' (Char.ofNat 9) _ rfl, htl]
              rw [← h9, Char.ofNat_toNat]
            · by_cases h10 : c.toNat = 10
              · have hesc : escChar c = [bSlash, 'n'] := by
                  rw [escChar, if_neg hq, if_neg hb, if_neg h8, if_neg h9, if_pos h10]
                rw [hesc]
                rw [show ([bSlash, 'n'] : List Char) ++
                  ((r.map escChar).flatten ++ qMark :: rest) =
                  bSlash :: 'n' :: ((r.map escChar).flatten ++ qMark :: rest) from rfl]
                rw [parseStrBody_cons_esc f 'n' (Char.ofNat 10) _ rfl, htl]
                rw [← h10, Char.ofNat_toNat]
              · by_cases h12 : c.toNat = 12
                · have hesc : escChar c = [bSlash, 'f'] := by
                    rw [escChar, if_neg hq, if_neg hb, if_neg h8, if_neg h9, if_neg h10,
                      if_pos h12]
                  rw [hesc]
                  rw [show ([bSlash, 'f'] : List Char) ++
                    ((r.map escChar).flatten ++ qMark :: rest) =
                    bSlash :: 'f' :: ((r.map escChar).flatten ++ qMark :: rest) from rfl]
                  rw [parseStrBody_cons_esc f 'f' (Char.ofNat 12) _ rfl, htl]
                  rw [← h12, Char.ofNat_toNat]
                · by_cases h13 : c.toNat = 13
                  · have hesc : escChar c = [bSlash, 'r'] := by
                      rw [escChar, if_neg hq, if_neg hb, if_neg h8, if_neg h9, if_neg h10,
                        if_neg h12, if_pos h13]
                    rw [hesc]
                    rw [show ([bSlash, 'r'] : List Char) ++
                      ((r.map escChar).flatten ++ qMark :: rest) =
                      bSlash :: 'r' :: ((r.map escChar).flatten ++ qMark :: rest) from rfl]
                    rw [parseStrBody_cons_esc f 'r' (Char.ofNat 13) _ rfl, htl]
                    rw [← h13, Char.ofNat_toNat]
                  · by_cases hlt : c.toNat < 32
                    · have hesc : escChar c = [bSlash, 'u', '0', '0',
                          hexChar (c.toNat / 16), hexChar (c.toNat % 16)] := by
                        rw [escChar, if_neg hq, if_neg hb, if_neg h8, if_neg h9,
                          if_neg h10, if_neg h12, if_neg h13, if_pos hlt]
                      rw [hesc]
                      rw [show ([bSlash, 'u', '0', '0', hexChar (c.toNat / 16),
                        hexChar (c.toNat % 16)] : List Char) ++
                        ((r.map escChar).flatten ++ qMark :: rest) =
                        bSlash :: 'u' :: '0' :: '0' :: hexChar (c.toNat / 16) ::
                          hexChar (c.toNat % 16) ::
                          ((r.map escChar).flatten ++ qMark :: rest) from rfl]
                      rw [parseStrBody_cons_hex f '0' '0' (hexChar (c.toNat / 16))
                        (hexChar (c.toNat % 16)) 0 0 (c.toNat / 16) (c.toNat % 16) _
                        rfl rfl
                        (hexValC_hexChar _ (by omega))
                        (hexValC_hexChar _ (Nat.mod_lt _ (by norm_num)))
                        rfl, htl]
                      have harith : ((0 * 16 + 0) * 16 + c.toNat / 16) * 16 +
                          c.toNat % 16 = c.toNat := by omega
                      rw [harith, Char.ofNat_toNat]
                    · have hesc : escChar c = [c] := by
                        rw [escChar, if_neg hq, if_neg hb, if_neg h8, if_neg h9,
                          if_neg h10, if_neg h12, if_neg h13, if_neg hlt]
                      rw [hesc]
                      rw [show ([c] : List Char) ++
                        ((r.map escChar).flatten ++ qMark :: rest) =
                        c :: ((r.map escChar).flatten ++ qMark :: rest) from rfl]
                      rw [parseStrBody_cons_plain f c _ hq hb hlt, htl]

/-! ### Lemmas: stringify/parse round trip infrastructure -/

theorem parseVal_unfold (fuel : ℕ) (cs : List Char) :
    parseVal (fuel + 1) cs =
    (let cs1 := cs.dropWhile isJsonWsC
    match cs1 with
    | [] => .error ()
    | c :: rest =>
      if c = obrace then
        let r2 := rest.dropWhile isJsonWsC
        match r2 with
        | c2 :: r3 => if c2 = cbrace then .ok (.obj [], r3) else parseMembers fuel r2 []
        | [] => .error ()
      else if c = '[' then
        let r2 := rest.dropWhile isJsonWsC
        match r2 with
        | ']' :: r3 => .ok (.arr [], r3)
        | _ :: _ => parseElems fuel r2 []
        | [] => .error ()
      else if c = qMark then
        match parseStrBody (rest.length + 1) rest with
        | .ok (s, r) => .ok (.str (String.mk s), r)
        | .error u => .error u
      else if "true".data.isPrefixOf cs1 then .ok (.bool true, cs1.drop 4)
      else if "false".data.isPrefixOf cs1 then .ok (.bool false, cs1.drop 5)
      else if "null".data.isPrefixOf cs1 then .ok (.null, cs1.drop 4)
      else
        match parseJNumber cs1 with
        | .ok (q, r) => .ok (.num (.val q), r)
        | .error u => .error u) := rfl

theorem parseMembers_unfold (fuel : ℕ) (cs : List Char) (acc : List (String × JVal)) :
    parseMembers (fuel + 1) cs acc =
    (let cs1 := cs.dropWhile isJsonWsC
    match cs1 with
    | c :: rest =>
      if c = qMark then
        match parseStrBody (rest.length + 1) rest with
        | .ok (k, r1) =>
          let r2 := r1.dropWhile isJsonWsC
          match r2 with
          | ':' :: r3 =>
            match parseVal fuel r3 with
            | .ok (v, r4) =>
              let acc2 := setFieldL acc (String.mk k) v
              let r5 := r4.dropWhile isJsonWsC
              match r5 with
              | ',' :: r6 => parseMembers fuel r6 acc2
              | c2 :: r6 => if c2 = cbrace then .ok (.obj acc2, r6) else .error ()
              | [] => .error ()
            | .error u => .error u
          | _ => .error ()
        | .error u => .error u
      else .error ()
    | [] => .error ()) := rfl

theorem parseElems_unfold (fuel : ℕ) (cs : List Char) (acc : List JVal) :
    parseElems (fuel + 1) cs acc =
    (match parseVal fuel cs with
    | .ok (v, r1) =>
      let r2 := r1.dropWhile isJsonWsC
      match r2 with
      | ',' :: r3 => parseElems fuel r3 (acc ++ [v])
      | ']' :: r3 => .ok (.arr (acc ++ [v]), r3)
      | _ => .error ()
    | .error u => .error u) := rfl

theorem isPrefixOf_cons_ne (p c : Char) (pt l : List Char) (h : (p == c) = false) :
    (p :: pt).isPrefixOf (c :: l) = false := by
  simp [List.isPrefixOf, h]

theorem isPrefixOf_append_self (l r : List Char) : l.isPrefixOf (l ++ r) = true := by
  induction l with
  | nil => simp [List.isPrefixOf]
  | cons c tl ih => simp [List.isPrefixOf, ih]

theorem printNum_head_shape (q : ℚ) :
    ∃ c tl, printNum q = c :: tl ∧ (c = '-' ∨ isDigitC c = true) := by
  rw [printNum]
  cases hneg : Rat.blt q 0 with
  | true =>
    exact ⟨'-', _, rfl, Or.inl rfl⟩
  | false =>
    cases hpn : printNat (qfloorN q) with
    | nil => exact absurd hpn (printNat_ne_nil _)
    | cons c tl =>
      refine ⟨c, tl ++ fracPartChars q, by simp only [Bool.false_eq_true, if_false, List.nil_append]; rw [hpn]; rfl, Or.inr ?_⟩
      exact printNat_all_digits _ c (by rw [hpn]; exact List.mem_cons_self c tl)

theorem numHead_facts (c : Char) (h : c = '-' ∨ isDigitC c = true) :
    isJsonWsC c = false ∧ ¬ c = obrace ∧ ¬ c = '[' ∧ ¬ c = qMark ∧ ¬ c = ']' ∧
      ('t' == c) = false ∧ ('f' == c) = false ∧ ('n' == c) = false := by
  rcases h with h | h
  · subst h
    refine ⟨rfl, by decide, by decide, by decide, by decide, rfl, rfl, rfl⟩
  · simp only [isDigitC, Bool.and_eq_true, decide_eq_true_eq] at h
    obtain ⟨h1, h2⟩ := h
    refine ⟨?_, ?_, ?_, ?_, ?_, ?_, ?_, ?_⟩
    · simp only [isJsonWsC, Bool.or_eq_false_iff, decide_eq_false_iff_not]
      omega
    · intro he; rw [he] at h2; exact absurd h2 (by decide)
    · intro he; rw [he] at h2; exact absurd h2 (by decide)
    · intro he; rw [he] at h1; exact absurd h1 (by decide)
    · intro he; rw [he] at h2; exact absurd h2 (by decide)
    · rw [beq_eq_false_iff_ne]
      intro he; rw [← he] at h2; exact absurd h2 (by decide)
    · rw [beq_eq_false_iff_ne]
      intro he; rw [← he] at h2; exact absurd h2 (by decide)
    · rw [beq_eq_false_iff_ne]
      intro he; rw [← he] at h2; exact absurd h2 (by decide)

theorem dropWhile_cons_head (c : Char) (tl : List Char) (h : isJsonWsC c = false) :
    (c :: tl).dropWhile isJsonWsC = c :: tl :=
  List.dropWhile_cons_of_neg (by simp [h])

theorem strfyV_head_shape (v : JVal) :
    ∃ c tl, strfyV v = c :: tl ∧ isJsonWsC c = false ∧ ¬ c = ']' := by
  cases v with
  | null => exact ⟨'n', ['u', 'l', 'l'], rfl, by decide, by decide⟩
  | undef => exact ⟨'n', ['u', 'l', 'l'], rfl, by decide, by decide⟩
  | bool b =>
    cases b with
    | true => exact ⟨'t', ['r', 'u', 'e'], rfl, by decide, by decide⟩
    | false => exact ⟨'f', ['a', 'l', 's', 'e'], rfl, by decide, by decide⟩
  | num n =>
    cases n with
    | nan => exact ⟨'n', ['u', 'l', 'l'], rfl, by decide, by decide⟩
    | val q =>
      obtain ⟨c, tl, hpr, hcd⟩ := printNum_head_shape q
      obtain ⟨hws, _, _, _, hrb, _, _, _⟩ := numHead_facts c hcd
      exact ⟨c, tl, hpr, hws, hrb⟩
  | str s =>
    exact ⟨qMark, (s.data.map escChar).flatten ++ [qMark], rfl, by decide, by decide⟩
  | arr l => exact ⟨'[', strfyL l ++ [']'], rfl, by decide, by decide⟩
  | obj fs => exact ⟨obrace, strfyF fs ++ [cbrace], rfl, by decide, by decide⟩

theorem strfyL_cons_ex (v : JVal) (r : List JVal) :
    ∃ t2, strfyL (v :: r) = strfyV v ++ t2 := by
  cases r with
  | nil => exact ⟨[], by simp [strfyL]⟩
  | cons w r2 => exact ⟨',' :: strfyL (w :: r2), rfl⟩

theorem strfyF_cons_ex (k : String) (v : JVal) (r : List (String × JVal)) :
    ∃ t2, strfyF ((k, v) :: r) = strfyStr k ++ t2 := by
  cases r with
  | nil => exact ⟨':' :: strfyV v, rfl⟩
  | cons p r2 => exact ⟨':' :: strfyV v ++ ',' :: strfyF (p :: r2), by cases p; simp [strfyF]⟩

theorem escChar_length_pos (c : Char) : 1 ≤ (escChar c).length := by
  unfold escChar
  split
  · simp
  · split
    · simp
    · split
      · simp
      · split
        · simp
        · split
          · simp
          · split
            · simp
            · split
              · simp
              · split
                · simp
                · simp

theorem length_le_flatten_escChar (l : List Char) :
    l.length ≤ ((l.map escChar).flatten).length := by
  induction l with
  | nil => simp
  | cons c tl ih =>
    have := escChar_length_pos c
    simp only [List.map_cons, List.flatten_cons, List.length_append, List.length_cons]
    omega

theorem setFieldL_notmem (acc : List (String × JVal)) (k : String) (v : JVal)
    (h : ∀ p ∈ acc, ¬ p.1 = k) : setFieldL acc k v = acc ++ [(k, v)] := by
  induction acc with
  | nil => rfl
  | cons p r ih =>
    cases p with
    | mk k2 v2 =>
      rw [setFieldL, if_neg (h (k2, v2) (List.mem_cons_self _ _)), List.cons_append]
      rw [ih (fun p hp => h p (List.mem_cons_of_mem _ hp))]

theorem noDupKeysB_key_notin (acc : List (String × JVal)) (k : String) (v : JVal)
    (fs2 : List (String × JVal)) (h : noDupKeysB (acc ++ (k, v) :: fs2) = true) :
    ∀ p ∈ acc, ¬ p.1 = k := by
  induction acc with
  | nil => simp
  | cons p0 r ih =>
    cases p0 with
    | mk k0 v0 =>
      rw [List.cons_append, noDupKeysB, Bool.and_eq_true] at h
      obtain ⟨h1, h2⟩ := h
      intro p hp
      rcases List.mem_cons.mp hp with hp | hp
      · subst hp
        intro hk
        rw [Bool.not_eq_eq_eq_not, Bool.not_true, List.any_eq_false] at h1
        have h3 := h1 (k, v) (by simp)
        simp only [decide_eq_true_eq] at h3
        exact h3 hk.symm
      · exact ih h2 p hp

theorem jsize_pos (v : JVal) : 1 ≤ jsize v := by
  cases v <;> simp [jsize]

theorem sepOK_comma (r : List Char) : SepOK (',' :: r) := Or.inl rfl

theorem sepOK_rbracket (r : List Char) : SepOK (']' :: r) := Or.inr (Or.inl rfl)

theorem sepOK_cbrace (r : List Char) : SepOK (cbrace :: r) := Or.inr (Or.inr rfl)

theorem parse_roundtrip_aux (fuel : ℕ) :
    (∀ v rest, serializableB v = true → jsize v ≤ fuel → SepOK rest →
        parseVal fuel (strfyV v ++ rest) = .ok (v, rest)) ∧
    (∀ l rest acc, serializableL l = true → jsizeL l ≤ fuel → ¬ l = [] →
        parseElems fuel (strfyL l ++ ']' :: rest) acc = .ok (.arr (acc ++ l), rest)) ∧
    (∀ fs rest acc, serializableF fs = true →
        noDupKeysB (acc ++ fs) = true → jsizeF fs ≤ fuel → ¬ fs = [] →
        parseMembers fuel (strfyF fs ++ cbrace :: rest) acc =
          .ok (.obj (acc ++ fs), rest)) := by
  induction fuel with
  | zero =>
    refine ⟨?_, ?_, ?_⟩
    · intro v rest hs hsz _
      exact absurd hsz (by have := jsize_pos v; omega)
    · intro l rest acc _ hsz hne
      cases l with
      | nil => exact absurd rfl hne
      | cons v r => exfalso; rw [jsizeL] at hsz; omega
    · intro fs rest acc _ _ hsz hne
      cases fs with
      | nil => exact absurd rfl hne
      | cons p r =>
        exfalso
        cases p with
        | mk k v => rw [jsizeF] at hsz; omega
  | succ fuel ih =>
    obtain ⟨ihV, ihE, ihM⟩ := ih
    refine ⟨?_, ?_, ?_⟩
    · intro v rest hs hsz hsep
      cases v with
      | null =>
        rw [parseVal_unfold]
        dsimp only
        rw [show strfyV JVal.null ++ rest = 'n' :: ("ull".data ++ rest) from rfl]
        rw [dropWhile_cons_head _ _ (by decide)]
        dsimp only
        rw [if_neg (by decide), if_neg (by decide), if_neg (by decide)]
        have hp1 : ("true".data.isPrefixOf ('n' :: ("ull".data ++ rest))) = false := by
          rw [show "true".data = 't' :: "rue".data from rfl]
          exact isPrefixOf_cons_ne _ _ _ _ (by decide)
        have hp2 : ("false".data.isPrefixOf ('n' :: ("ull".data ++ rest))) = false := by
          rw [show "false".data = 'f' :: "alse".data from rfl]
          exact isPrefixOf_cons_ne _ _ _ _ (by decide)
        have hp3 : ("null".data.isPrefixOf ('n' :: ("ull".data ++ rest))) = true := by
          rw [show ('n' :: ("ull".data ++ rest)) = "null".data ++ rest from rfl]
          exact isPrefixOf_append_self _ _
        rw [hp1, hp2, hp3]
        simp only [Bool.false_eq_true, if_false, if_true]
        rfl
      | undef => simp [serializableB] at hs
      | bool b =>
        cases b with
        | true =>
          rw [parseVal_unfold]
          dsimp only
          rw [show strfyV (JVal.bool true) ++ rest = 't' :: ("rue".data ++ rest) from rfl]
          rw [dropWhile_cons_head _ _ (by decide)]
          dsimp only
          rw [if_neg (by decide), if_neg (by decide), if_neg (by decide)]
          have hp1 : ("true".data.isPrefixOf ('t' :: ("rue".data ++ rest))) = true := by
            rw [show ('t' :: ("rue".data ++ rest)) = "true".data ++ rest from rfl]
            exact isPrefixOf_append_self _ _
          rw [hp1]
          simp only [if_true]
          rfl
        | false =>
          rw [parseVal_unfold]
          dsimp only
          rw [show strfyV (JVal.bool false) ++ rest =
            'f' :: ("alse".data ++ rest) from rfl]
          rw [dropWhile_cons_head _ _ (by decide)]
          dsimp only
          rw [if_neg (by decide), if_neg (by decide), if_neg (by decide)]
          have hp1 : ("true".data.isPrefixOf ('f' :: ("alse".data ++ rest))) = false := by
            rw [show "true".data = 't' :: "rue".data from rfl]
            exact isPrefixOf_cons_ne _ _ _ _ (by decide)
          have hp2 : ("false".data.isPrefixOf ('f' :: ("alse".data ++ rest))) = true := by
            rw [show ('f' :: ("alse".data ++ rest)) = "false".data ++ rest from rfl]
            exact isPrefixOf_append_self _ _
          rw [hp1, hp2]
          simp only [Bool.false_eq_true, if_false, if_true]
          rfl
      | num n =>
        cases n with
        | nan => simp [serializableB] at hs
        | val q =>
          have hp : printableQ q = true := by simpa [serializableB] using hs
          obtain ⟨c, tl, hpr, hcd⟩ := printNum_head_shape q
          obtain ⟨hws, hobr, hlbr, hqm, hrb, ht, hf, hn⟩ := numHead_facts c hcd
          rw [parseVal_unfold]
          dsimp only
          rw [show strfyV (.num (.val q)) = printNum q from rfl]
          rw [hpr, List.cons_append, dropWhile_cons_head c _ hws]
          dsimp only
          rw [if_neg hobr, if_neg hlbr, if_neg hqm]
          have hpt : ("true".data.isPrefixOf (c :: (tl ++ rest))) = false := by
            rw [show "true".data = 't' :: "rue".data from rfl]
            exact isPrefixOf_cons_ne _ _ _ _ ht
          have hpf : ("false".data.isPrefixOf (c :: (tl ++ rest))) = false := by
            rw [show "false".data = 'f' :: "alse".data from rfl]
            exact isPrefixOf_cons_ne _ _ _ _ hf
          have hpn : ("null".data.isPrefixOf (c :: (tl ++ rest))) = false := by
            rw [show "null".data = 'n' :: "ull".data from rfl]
            exact isPrefixOf_cons_ne _ _ _ _ hn
          rw [hpt, hpf, hpn]
          simp only [Bool.false_eq_true, if_false]
          rw [← List.cons_append, ← hpr, parseJNumber_printNum q hp rest hsep]
      | str s =>
        obtain ⟨sd⟩ := s
        rw [parseVal_unfold]
        dsimp only
        rw [show strfyV (.str (String.mk sd)) =
          qMark :: ((sd.map escChar).flatten ++ [qMark]) from rfl]
        rw [List.cons_append, dropWhile_cons_head _ _ (by decide)]
        dsimp only
        rw [if_neg (by decide), if_neg (by decide), if_pos rfl]
        have hassoc : ((sd.map escChar).flatten ++ [qMark]) ++ rest =
            (sd.map escChar).flatten ++ qMark :: rest := by simp
        rw [hassoc]
        rw [parseStrBody_escape sd
          (((sd.map escChar).flatten ++ qMark :: rest).length + 1) rest (by
            simp only [List.length_append, List.length_cons]
            have := length_le_flatten_escChar sd
            omega)]
      | arr l =>
        have hsl : serializableL l = true := by simpa [serializableB] using hs
        have hszl : jsizeL l ≤ fuel := by
          simp only [jsize] at hsz
          omega
        rw [parseVal_unfold]
        dsimp only
        rw [show strfyV (.arr l) = '[' :: (strfyL l ++ [']']) from by simp [strfyV]]
        rw [List.cons_append, dropWhile_cons_head _ _ (by decide)]
        dsimp only
        rw [if_neg (by decide), if_pos rfl]
        cases l with
        | nil =>
          rw [show strfyL ([] : List JVal) = [] from rfl]
          rw [show (([] : List Char) ++ [']']) ++ rest = ']' :: rest from by simp]
          rw [dropWhile_cons_head _ _ (by decide)]
          rfl
        | cons v r =>
          obtain ⟨c, tl, hv, hws, hrb⟩ := strfyV_head_shape v
          obtain ⟨t2, ht2⟩ := strfyL_cons_ex v r
          rw [show (strfyL (v :: r) ++ [']']) ++ rest =
            c :: (tl ++ (t2 ++ ']' :: rest)) from by
              rw [ht2, hv]; simp]
          rw [dropWhile_cons_head _ _ hws]
          split
          · rename_i r3 heq
            exfalso
            injection heq with h1 _
            exact hrb h1
          · rw [show c :: (tl ++ (t2 ++ ']' :: rest)) =
              strfyL (v :: r) ++ ']' :: rest from by rw [ht2, hv]; simp]
            rw [ihE (v :: r) rest [] hsl (by omega) (by simp)]
            simp
          · rename_i heq h2
            exact absurd h2 (by simp)
      | obj fs =>
        have hnd : noDupKeysB fs = true := by
          have := hs
          simp only [serializableB, Bool.and_eq_true] at this
          exact this.1
        have hsf : serializableF fs = true := by
          have := hs
          simp only [serializableB, Bool.and_eq_true] at this
          exact this.2
        have hszf : jsizeF fs ≤ fuel := by
          simp only [jsize] at hsz
          omega
        rw [parseVal_unfold]
        dsimp only
        rw [show strfyV (.obj fs) = obrace :: (strfyF fs ++ [cbrace]) from by
          simp [strfyV]]
        rw [List.cons_append, dropWhile_cons_head _ _ (by decide)]
        dsimp only
        rw [if_pos rfl]
        cases fs with
        | nil =>
          rw [show strfyF ([] : List (String × JVal)) = [] from rfl]
          rw [show (([] : List Char) ++ [cbrace]) ++ rest = cbrace :: rest from by simp]
          rw [dropWhile_cons_head _ _ (by decide)]
          dsimp only
          rw [if_pos rfl]
        | cons p r =>
          obtain ⟨k, v⟩ := p
          obtain ⟨t2, ht2⟩ := strfyF_cons_ex k v r
          rw [show (strfyF ((k, v) :: r) ++ [cbrace]) ++ rest =
            qMark :: (((k.data.map escChar).flatten ++ [qMark]) ++
              (t2 ++ cbrace :: rest)) from by
              rw [ht2]; simp [strfyStr]]
          rw [dropWhile_cons_head _ _ (by decide)]
          dsimp only
          rw [if_neg (by decide)]
          rw [show qMark :: (((k.data.map escChar).flatten ++ [qMark]) ++
            (t2 ++ cbrace :: rest)) = strfyF ((k, v) :: r) ++ cbrace :: rest from by
              rw [ht2]; simp [strfyStr]]
          rw [ihM ((k, v) :: r) rest [] hsf (by simpa using hnd) (by omega) (by simp)]
          simp
    · intro l rest acc hsl hsz hne
      cases l with
      | nil => exact absurd rfl hne
      | cons v r =>
        have hsv : serializableB v = true := by
          simp only [serializableL, Bool.and_eq_true] at hsl
          exact hsl.1
        have hsr : serializableL r = true := by
          simp only [serializableL, Bool.and_eq_true] at hsl
          exact hsl.2
        rw [jsizeL] at hsz
        rw [parseElems_unfold]
        cases r with
        | nil =>
          rw [show strfyL [v] = strfyV v from by simp [strfyL]]
          rw [ihV v (']' :: rest) hsv (by omega) (sepOK_rbracket rest)]
          dsimp only
          rw [dropWhile_cons_head _ _ (by decide)]
          rfl
        | cons w r2 =>
          rw [show strfyL (v :: w :: r2) ++ ']' :: rest =
            strfyV v ++ (',' :: (strfyL (w :: r2) ++ ']' :: rest)) from by
              rw [show strfyL (v :: w :: r2) =
                strfyV v ++ ',' :: strfyL (w :: r2) from by simp [strfyL]]
              simp]
          rw [ihV v _ hsv (by omega) (sepOK_comma _)]
          dsimp only
          rw [dropWhile_cons_head _ _ (by decide)]
          show parseElems fuel (strfyL (w :: r2) ++ ']' :: rest) (acc ++ [v]) = _
          rw [ihE (w :: r2) rest (acc ++ [v]) hsr (by rw [jsizeL] at hsz ⊢; omega)
            (by simp)]
          simp
    · intro fs rest acc hsf hnd hsz hne
      cases fs with
      | nil => exact absurd rfl hne
      | cons p r =>
        obtain ⟨k, v⟩ := p
        obtain ⟨kd⟩ := k
        have hsv : serializableB v = true := by
          simp only [serializableF, Bool.and_eq_true] at hsf
          exact hsf.1
        have hsr : serializableF r = true := by
          simp only [serializableF, Bool.and_eq_true] at hsf
          exact hsf.2
        rw [jsizeF] at hsz
        rw [parseMembers_unfold]
        dsimp only
        cases r with
        | nil =>
          rw [show strfyF [(String.mk kd, v)] ++ cbrace :: rest =
            qMark :: ((kd.map escChar).flatten ++
              qMark :: (':' :: (strfyV v ++ cbrace :: rest))) from by
              simp [strfyF, strfyStr]]
          rw [dropWhile_cons_head _ _ (by decide)]
          dsimp only
          rw [if_pos rfl]
          rw [parseStrBody_escape kd _ (':' :: (strfyV v ++ cbrace :: rest)) (by
            simp only [List.length_append, List.length_cons]
            have := length_le_flatten_escChar kd
            omega)]
          dsimp only
          rw [dropWhile_cons_head _ _ (by decide)]
          show (match parseVal fuel (strfyV v ++ cbrace :: rest) with
            | .ok (v2, r4) =>
              match r4.dropWhile isJsonWsC with
              | ',' :: r6 => parseMembers fuel r6 (setFieldL acc (String.mk kd) v2)
              | c2 :: r6 =>
                if c2 = cbrace then .ok (.obj (setFieldL acc (String.mk kd) v2), r6)
                else .error ()
              | [] => .error ()
            | .error u => .error u) = _
          rw [ihV v (cbrace :: rest) hsv (by omega) (sepOK_cbrace rest)]
          dsimp only
          rw [setFieldL_notmem acc (String.mk kd) v
            (noDupKeysB_key_notin acc (String.mk kd) v [] (by simpa using hnd))]
          rw [dropWhile_cons_head _ _ (by decide)]
          rfl
        | cons p2 r2 =>
          rw [show strfyF ((String.mk kd, v) :: p2 :: r2) ++ cbrace :: rest =
            qMark :: ((kd.map escChar).flatten ++
              qMark :: (':' :: (strfyV v ++
                (',' :: (strfyF (p2 :: r2) ++ cbrace :: rest))))) from by
              obtain ⟨k2, v2⟩ := p2
              simp [strfyF, strfyStr]]
          rw [dropWhile_cons_head _ _ (by decide)]
          dsimp only
          rw [if_pos rfl]
          rw [parseStrBody_escape kd _
            (':' :: (strfyV v ++ (',' :: (strfyF (p2 :: r2) ++ cbrace :: rest)))) (by
            simp only [List.length_append, List.length_cons]
            have := length_le_flatten_escChar kd
            omega)]
          dsimp only
          rw [dropWhile_cons_head _ _ (by decide)]
          show (match parseVal fuel
              (strfyV v ++ (',' :: (strfyF (p2 :: r2) ++ cbrace :: rest))) with
            | .ok (v2, r4) =>
              match r4.dropWhile isJsonWsC with
              | ',' :: r6 => parseMembers fuel r6 (setFieldL acc (String.mk kd) v2)
              | c2 :: r6 =>
                if c2 = cbrace then .ok (.obj (setFieldL acc (String.mk kd) v2), r6)
                else .error ()
              | [] => .error ()
            | .error u => .error u) = _
          rw [ihV v _ hsv (by omega) (sepOK_comma _)]
          dsimp only
          rw [setFieldL_notmem acc (String.mk kd) v
            (noDupKeysB_key_notin acc (String.mk kd) v (p2 :: r2) (by simpa using hnd))]
          rw [dropWhile_cons_head _ _ (by decide)]
          show parseMembers fuel (strfyF (p2 :: r2) ++ cbrace :: rest)
            (acc ++ [(String.mk kd, v)]) = _
          rw [ihM (p2 :: r2) rest (acc ++ [(String.mk kd, v)]) hsr
            (by rw [List.append_assoc]; simpa using hnd)
            (by cases p2 with | mk k2 v2 => rw [jsizeF] at hsz ⊢; omega)
            (by simp)]
          simp

theorem printNum_length_pos (q : ℚ) : 1 ≤ (printNum q).length := by
  obtain ⟨c, tl, h, _⟩ := printNum_head_shape q
  rw [h]
  simp

theorem strfyV_length_pos (v : JVal) : 1 ≤ (strfyV v).length := by
  obtain ⟨c, tl, h, _, _⟩ := strfyV_head_shape v
  rw [h]
  simp

theorem jsize_le_strfy_aux (n : ℕ) :
    (∀ v, jsize v ≤ n → jsize v ≤ (strfyV v).length) ∧
    (∀ l, jsizeL l ≤ n → jsizeL l ≤ (strfyL l).length + 1) ∧
    (∀ fs, jsizeF fs ≤ n → jsizeF fs ≤ (strfyF fs).length + 1) := by
  induction n with
  | zero =>
    refine ⟨?_, ?_, ?_⟩
    · intro v hv
      exact absurd hv (by have := jsize_pos v; omega)
    · intro l hl
      cases l with
      | nil => simp [jsizeL]
      | cons v r => exfalso; rw [jsizeL] at hl; omega
    · intro fs hf
      cases fs with
      | nil => simp [jsizeF]
      | cons p r =>
        exfalso
        cases p with
        | mk k v => rw [jsizeF] at hf; omega
  | succ n ih =>
    obtain ⟨ihA, ihB, ihC⟩ := ih
    refine ⟨?_, ?_, ?_⟩
    · intro v hv
      cases v with
      | null => simp [jsize, strfyV]
      | undef => simp [jsize, strfyV]
      | bool b => cases b <;> simp [jsize, strfyV]
      | num nv =>
        cases nv with
        | nan => simp [jsize, strfyV]
        | val q =>
          have := printNum_length_pos q
          simp only [jsize, strfyV]
          omega
      | str s =>
        simp only [jsize, strfyV, strfyStr]
        simp
      | arr l =>
        rw [jsize] at hv ⊢
        have hb := ihB l (by omega)
        rw [show strfyV (.arr l) = '[' :: (strfyL l ++ [']']) from by simp [strfyV]]
        simp only [List.length_cons, List.length_append, List.length_singleton]
        omega
      | obj fs =>
        rw [jsize] at hv ⊢
        have hc := ihC fs (by omega)
        rw [show strfyV (.obj fs) = obrace :: (strfyF fs ++ [cbrace]) from by
          simp [strfyV]]
        simp only [List.length_cons, List.length_append, List.length_singleton]
        omega
    · intro l hl
      cases l with
      | nil => simp [jsizeL]
      | cons v r =>
        rw [jsizeL] at hl ⊢
        have ha := ihA v (by omega)
        cases r with
        | nil =>
          rw [show strfyL [v] = strfyV v from by simp [strfyL]]
          simp only [jsizeL]
          omega
        | cons w r2 =>
          have hb := ihB (w :: r2) (by omega)
          have hpos := strfyV_length_pos v
          rw [show strfyL (v :: w :: r2) = strfyV v ++ ',' :: strfyL (w :: r2) from by
            simp [strfyL]]
          simp only [List.length_append, List.length_cons]
          omega
    · intro fs hf
      cases fs with
      | nil => simp [jsizeF]
      | cons p r =>
        obtain ⟨k, v⟩ := p
        rw [jsizeF] at hf ⊢
        have ha := ihA v (by omega)
        have hkpos : 2 ≤ (strfyStr k).length := by
          rw [strfyStr]
          simp
        cases r with
        | nil =>
          rw [show strfyF [(k, v)] = strfyStr k ++ ':' :: strfyV v from by
            simp [strfyF]]
          simp only [jsizeF, List.length_append, List.length_cons]
          omega
        | cons p2 r2 =>
          have hc := ihC (p2 :: r2) (by omega)
          rw [show strfyF ((k, v) :: p2 :: r2) =
            strfyStr k ++ ':' :: strfyV v ++ ',' :: strfyF (p2 :: r2) from by
              obtain ⟨k2, v2⟩ := p2
              simp [strfyF]]
          simp only [List.length_append, List.length_cons]
          omega

theorem jsize_le_strfy (v : JVal) : jsize v ≤ (strfyV v).length :=
  (jsize_le_strfy_aux (jsize v)).1 v le_rfl

theorem parseJsonText_strfy (v : JVal) (hs : serializableB v = true) :
    parseJsonText (strfyV v) = .ok v := by
  have h := (parse_roundtrip_aux ((strfyV v).length + 1)).1 v [] hs
    (by have := jsize_le_strfy v; omega) trivial
  rw [List.append_nil] at h
  rw [parseJsonText, h]
  rfl

/-! ### Lemmas: the repair pipeline is the identity on clean serialized output -/

theorem jsTrim_id (c1 : Char) (mid : List Char) (c2 : Char)
    (h1 : isJsWs c1 = false) (h2 : isJsWs c2 = false) :
    jsTrim (c1 :: (mid ++ [c2])) = c1 :: (mid ++ [c2]) := by
  have hrev : (c1 :: (mid ++ [c2])).reverse = c2 :: (mid.reverse ++ [c1]) := by simp
  rw [jsTrim, List.dropWhile_cons_of_neg (by simp [h1]), hrev,
    List.dropWhile_cons_of_neg (by simp [h2]), ← hrev, List.reverse_reverse]

theorem stripLeadJsonFence_obrace (X : List Char) :
    stripLeadJsonFence (obrace :: X) = obrace :: X := by
  have h : ("```json".data.isPrefixOf (obrace :: X)) = false := by
    rw [show "```json".data = Char.ofNat 96 :: "``json".data from rfl]
    exact isPrefixOf_cons_ne _ _ _ _ (by decide)
  rw [stripLeadJsonFence, if_neg (by simp [h])]

theorem stripLeadFence_obrace (X : List Char) :
    stripLeadFence (obrace :: X) = obrace :: X := by
  have h : ("```".data.isPrefixOf (obrace :: X)) = false := by
    rw [show "```".data = Char.ofNat 96 :: "``".data from rfl]
    exact isPrefixOf_cons_ne _ _ _ _ (by decide)
  rw [stripLeadFence, if_neg (by simp [h])]

theorem stripTrailFence_cbrace (mid : List Char) :
    stripTrailFence (obrace :: (mid ++ [cbrace])) = obrace :: (mid ++ [cbrace]) := by
  have h : ("```".data.isSuffixOf (obrace :: (mid ++ [cbrace]))) = false := by
    rw [List.isSuffixOf]
    rw [show ("```".data).reverse = Char.ofNat 96 :: "``".data from rfl]
    rw [show (obrace :: (mid ++ [cbrace])).reverse =
      cbrace :: (mid.reverse ++ [obrace]) from by simp]
    exact isPrefixOf_cons_ne _ _ _ _ (by decide)
  rw [stripTrailFence, if_neg (by simp [h])]

theorem preclean_objlike (mid : List Char) :
    preclean (obrace :: (mid ++ [cbrace])) = obrace :: (mid ++ [cbrace]) := by
  rw [preclean, jsTrim_id obrace mid cbrace (by decide) (by decide),
    stripLeadJsonFence_obrace, stripLeadFence_obrace, stripTrailFence_cbrace]

theorem jsonSpan_whole (mid : List Char) :
    jsonSpan (obrace :: (mid ++ [cbrace])) = some (obrace :: (mid ++ [cbrace])) := by
  rw [jsonSpan]
  rw [show (obrace :: (mid ++ [cbrace])).findIdx? (fun c => c = obrace) = some 0 from by
    simp [List.findIdx?_cons]]
  rw [show (obrace :: (mid ++ [cbrace])).reverse.findIdx? (fun c => c = cbrace) =
    some 0 from by
      rw [show (obrace :: (mid ++ [cbrace])).reverse =
        cbrace :: (mid.reverse ++ [obrace]) from by simp]
      simp [List.findIdx?_cons]]
  dsimp only
  rw [if_pos (by
    simp only [List.length_cons, List.length_append, List.length_singleton]
    omega)]
  rw [List.drop_zero]
  rw [show (obrace :: (mid ++ [cbrace])).length - 1 - 0 - 0 + 1 =
    (obrace :: (mid ++ [cbrace])).length from by
      simp only [List.length_cons, List.length_append, List.length_singleton]
      omega]
  rw [List.take_length]

theorem msFixGo_id (key : List Char) (fuel : ℕ) : ∀ (cs : List Char),
    hasMsPat key cs = false → msFixGo key fuel cs = cs := by
  induction fuel with
  | zero => intro cs _; rw [msFixGo]
  | succ f ih =>
    intro cs h
    cases cs with
    | nil => rw [msFixGo]
    | cons c rest =>
      rw [hasMsPat, Bool.or_eq_false_iff] at h
      obtain ⟨hm, hr⟩ := h
      rw [msFixGo]
      cases hmm : matchMs key (c :: rest) with
      | some p =>
        rw [hmm] at hm
        simp at hm
      | none =>
        dsimp only
        rw [ih rest hr]

theorem msFixAll_id (cs : List Char) (h1 : hasMsPat "start".data cs = false)
    (h2 : hasMsPat "end".data cs = false) : msFixAll cs = cs := by
  rw [msFixAll]
  dsimp only
  rw [msFixGo_id "start".data cs.length cs h1]
  rw [msFixGo_id "end".data cs.length cs h2]

theorem replGo_id (pat repl : List Char) (fuel : ℕ) : ∀ (cs : List Char),
    hasSub pat cs = false → replGo pat repl fuel cs = cs := by
  induction fuel with
  | zero => intro cs _; rw [replGo]
  | succ f ih =>
    intro cs h
    cases cs with
    | nil => rw [replGo]
    | cons c rest =>
      rw [hasSub, Bool.or_eq_false_iff] at h
      obtain ⟨hp, hr⟩ := h
      rw [replGo, if_neg (by simp [hp]), ih rest hr]

theorem replaceAllL_id (pat repl : List Char) (cs : List Char)
    (h : hasSub pat cs = false) : replaceAllL pat repl cs = cs := by
  rw [replaceAllL]
  by_cases hp : pat.isEmpty = true
  · rw [if_pos hp]
  · rw [if_neg hp, replGo_id pat repl cs.length cs h]

theorem hasSub_mono (pat1 pat2 : List Char) (hp : pat1.isPrefixOf pat2 = true) :
    ∀ (cs : List Char), hasSub pat1 cs = false → hasSub pat2 cs = false := by
  intro cs
  induction cs with
  | nil =>
    intro h
    rw [hasSub] at h ⊢
    cases pat2 with
    | nil =>
      cases pat1 with
      | nil => simp [List.isEmpty] at h
      | cons p pt => simp [List.isPrefixOf] at hp
    | cons q qt => simp [List.isEmpty]
  | cons c rest ih =>
    intro h
    rw [hasSub, Bool.or_eq_false_iff] at h
    obtain ⟨h1, h2⟩ := h
    rw [hasSub, Bool.or_eq_false_iff]
    refine ⟨?_, ih h2⟩
    by_contra hcon
    rw [Bool.not_eq_false] at hcon
    rw [List.isPrefixOf_iff_prefix] at hp hcon
    have : pat1 <+: c :: rest := hp.trans hcon
    rw [← List.isPrefixOf_iff_prefix] at this
    rw [this] at h1
    exact absurd h1 (by simp)

theorem entFix_id (cs : List Char) (h : hasSub "&amp;".data cs = false) :
    entFix cs = cs := by
  have h39 : hasSub "&amp;#39;".data cs = false :=
    hasSub_mono "&amp;".data "&amp;#39;".data rfl cs h
  have hquot : hasSub "&amp;quot;".data cs = false :=
    hasSub_mono "&amp;".data "&amp;quot;".data rfl cs h
  rw [entFix, replaceAllL_id _ _ _ h39, replaceAllL_id _ _ _ hquot,
    replaceAllL_id _ _ _ h]

theorem fixSpan_id (cs : List Char) (h : hasSub "&amp;".data cs = false)
    (h1 : hasMsPat "start".data cs = false) (h2 : hasMsPat "end".data cs = false) :
    fixSpan cs = cs := by
  rw [fixSpan, msFixAll_id cs h1 h2, entFix_id cs h]

theorem extractJSON_is_obj (s : String) : ∃ fs, extractJSON s = .obj fs := by
  rcases extractJSON_cases s with h | ⟨fs, kept, h, _⟩
  · exact ⟨[("adSegments", .arr [])], h⟩
  · exact ⟨setFieldL fs "adSegments" (.arr kept), h⟩

theorem extractFromParsed_self (s : String) :
    extractFromParsed (extractJSON s) = extractJSON s := by
  rcases extractJSON_cases s with h | ⟨fs, kept, h, l, hl, hf⟩
  · rw [h]
    rw [extractFromParsed_arr emptyResult [] jsGetField_emptyResult]
    rw [show filterSegs [] = Except.ok ([] : List JVal) from rfl]
    dsimp only
    rw [show setField emptyResult "adSegments" (.arr []) =
      .obj (setFieldL [("adSegments", .arr [])] "adSegments" (.arr [])) from rfl]
    rw [setFieldL_self _ _ _ (by rw [lookupField, if_pos rfl])]
    rfl
  · have hget : jsGetField (extractJSON s) "adSegments" = .arr kept := by
      rw [h]
      rw [show jsGetField (.obj (setFieldL fs "adSegments" (.arr kept))) "adSegments" =
        (lookupField (setFieldL fs "adSegments" (.arr kept)) "adSegments").getD .undef
        from rfl]
      rw [lookupField_setFieldL]
      rfl
    rw [extractFromParsed_arr (extractJSON s) kept hget]
    rw [filterSegs_fixed kept (filterSegs_mem l kept hf)]
    dsimp only
    rw [h]
    rw [show setField (.obj (setFieldL fs "adSegments" (.arr kept))) "adSegments"
      (.arr kept) = .obj (setFieldL (setFieldL fs "adSegments" (.arr kept))
        "adSegments" (.arr kept)) from rfl]
    rw [setFieldL_self _ _ _ (lookupField_setFieldL fs "adSegments" (.arr kept))]

/-- C4 (amended): running the sanitizer on the `JSON.stringify` of a previous
sanitizer result returns that result unchanged provided the serialized form
contains no occurrence of the literal `&amp;`, no occurrence of the
`"start"`/`"end"` ms-repair pattern, and the result is serializable (no
`undefined`/NaN components and every number exactly printable).  Without
those provisos idempotence fails (see `c4_counterexample`). -/
theorem c4_idempotent_on_clean (s : String)
    (hamp : hasSub "&amp;".data (strfyV (extractJSON s)) = false)
    (hst : hasMsPat "start".data (strfyV (extractJSON s)) = false)
    (hen : hasMsPat "end".data (strfyV (extractJSON s)) = false)
    (hser : serializableB (extractJSON s) = true) :
    extractJSON (jsStringify (extractJSON s)) = extractJSON s := by
  obtain ⟨fs, hobj⟩ := extractJSON_is_obj s
  have hshape : strfyV (extractJSON s) = obrace :: (strfyF fs ++ [cbrace]) := by
    rw [hobj]
    simp [strfyV]
  have hdata : (jsStringify (extractJSON s)).data = strfyV (extractJSON s) := rfl
  have hspan : jsonSpan (preclean (jsStringify (extractJSON s)).data) =
      some (strfyV (extractJSON s)) := by
    rw [hdata, hshape, preclean_objlike, jsonSpan_whole]
  rw [extractJSON_span_some _ _ hspan]
  have hparse : parseJsonText (fixSpan (strfyV (extractJSON s))) =
      .ok (extractJSON s) := by
    rw [fixSpan_id _ hamp hst hen]
    exact parseJsonText_strfy _ hser
  rw [extractFromSpan_ok _ _ hparse]
  exact extractFromParsed_self s

set_option exponentiation.threshold 2000 in
/-- Witness for C4: the clean input
`{"adSegments":[{"start":1,"end":2.5,"text":"hi"}]}` satisfies all three
provisos, so its sanitization is a fixed point of
sanitize-after-stringify. -/
theorem c4_witness :
    extractJSON (jsStringify (extractJSON
      "\x7b\"adSegments\":[\x7b\"start\":1,\"end\":2.5,\"text\":\"hi\"\x7d]\x7d")) =
    extractJSON
      "\x7b\"adSegments\":[\x7b\"start\":1,\"end\":2.5,\"text\":\"hi\"\x7d]\x7d" :=
  c4_idempotent_on_clean
    "\x7b\"adSegments\":[\x7b\"start\":1,\"end\":2.5,\"text\":\"hi\"\x7d]\x7d"
    (by with_unfolding_all decide)
    (by with_unfolding_all decide)
    (by with_unfolding_all decide)
    (by with_unfolding_all decide)
